import Mathlib

/-!
Verification of the `ioloop.py` event loop (PollIOLoop and friends).

The Python source is shallowly embedded as follows.

* Callback bodies are deep-embedded as lists of `Action`s: the operations a
  callback run by the loop may perform on the loop itself (`add_callback`,
  `remove_timeout`, `stop`).  This is what the correctness claims about the
  loop's scheduling need; callbacks' other effects are irrelevant to the loop.
* `_Timeout` objects are mutable Python objects aliased from both the timer
  heap and the `due_timeouts` list; we model the object store explicitly as an
  association list from the (per-loop unique) `tiebreaker` to the object's
  `callback` field (`none` = cancelled), while the heap and due lists hold
  `(deadline, tiebreaker)` pairs.  A handle returned by `call_at` is its
  tiebreaker.
* Python's `heapq` module (library code, not part of this repository) is
  modelled at its documented contract: since all keys `(deadline, tiebreaker)`
  in one loop are distinct, the comparison `_Timeout.__lt__` is a total order
  and the heap is represented by its sorted sequence; `heappush` inserts in
  order, `heappop` removes the head (the minimum), `heapify` sorts.
* Real numbers (`time.time()` values, deadlines) are modelled as `Rat`.
* Locks are elided: each embedded operation is atomic, which is what the lock
  guarantees for the lock-protected sections.
* The poll backend and the clock are environmental: one loop iteration takes
  the two `self.time()` samples and the poll result as parameters.
-/

namespace Ioloop

/-- Deep-embedded actions a loop-run callback may perform on the loop.
`addCallback body` is `io_loop.add_callback(cb)` issued from the loop thread,
`removeTimeout tb` is `io_loop.remove_timeout(handle)` for the handle with
tiebreaker `tb`, `stop` is `io_loop.stop()`, and `nop` is any effect that does
not touch the loop. -/
inductive Action where
  | addCallback : List Action → Action
  | removeTimeout : Nat → Action
  | stop : Action
  | nop : Action

/-- A callback body: the sequence of loop operations it performs. -/
abbrev Prog := List Action

/-- The store of `_Timeout` objects of one loop: tiebreaker to the object's
`callback` field (`none` once `remove_timeout` has cleared it). -/
abbrev Store := List (Nat × Option Prog)

/-- A timer-heap entry: the immutable `(deadline, tiebreaker)` key of a
`_Timeout` object. -/
abbrev Entry := Rat × Nat

/-- Association-list lookup (Python dict / object lookup). -/
def assocGet {β : Type} : List (Nat × β) → Nat → Option β
  | [], _ => none
  | (k', v) :: rest, k => if k' = k then some v else assocGet rest k

/-- Association-list insert-or-replace, preserving the position of an existing
key (Python dict assignment `d[k] = v`). -/
def assocSet {β : Type} : List (Nat × β) → Nat → β → List (Nat × β)
  | [], k, v => [(k, v)]
  | (k', v') :: rest, k, v =>
      if k' = k then (k, v) :: rest else (k', v') :: assocSet rest k v

/-- Look up the `callback` field of the `_Timeout` object with tiebreaker
`tb`; `none` means no such object, `some none` a cancelled object. -/
def lookupStore (st : Store) (tb : Nat) : Option (Option Prog) :=
  assocGet st tb

/-- The effect of `timeout.callback = None` on the object store: clear the
callback of the object with tiebreaker `tb` (no-op if there is no such
object; for real handles the object always exists). -/
def setStoreNone : Store → Nat → Store
  | [], _ => []
  | (k, v) :: rest, tb =>
      if k = tb then (k, none) :: rest else (k, v) :: setStoreNone rest tb

/-- The Python test `timeout.callback is None` for the object with tiebreaker
`tb` (false when there is no such object; real handles always exist). -/
def isCancelled (store : Store) (tb : Nat) : Bool :=
  match lookupStore store tb with
  | some none => true
  | _ => false

/-- The ordering `_Timeout.__le__`: lexicographic on
`(deadline, tiebreaker)`. -/
def leKey (a b : Entry) : Prop :=
  a.1 < b.1 ∨ (a.1 = b.1 ∧ a.2 ≤ b.2)

instance : DecidableRel leKey := fun a b => by
  unfold leKey; infer_instance

/-- Model of `heapq.heappush` on the sorted-sequence representation: insert
keeping the sequence sorted by `_Timeout.__le__`. -/
def sortedInsert (x : Entry) (l : List Entry) : List Entry :=
  List.orderedInsert leKey x l

/-- Model of `heapq.heapify` on the sorted-sequence representation: sort by
`_Timeout.__le__` (insertion sort). -/
def heapify (l : List Entry) : List Entry :=
  List.insertionSort leKey l

/-- One entry of the loop's run log, recording in order every invocation the
loop performs and every cancellation executed by running code:
`cb seq` = the queued callback with sequence number `seq` was invoked,
`timer tb` = the timer callback with tiebreaker `tb` was invoked,
`handler fd` = the fd handler for `fd` was invoked,
`cancel tb` = `remove_timeout` cleared the callback of timer `tb`. -/
inductive LogEntry where
  | cb : Nat → LogEntry
  | timer : Nat → LogEntry
  | handler : Nat → LogEntry
  | cancel : Nat → LogEntry
deriving DecidableEq, Repr

/-- The tiebreakers of the timer invocations in a log, in order. -/
def timersOf (L : List LogEntry) : List Nat :=
  L.filterMap fun e =>
    match e with
    | LogEntry.timer t => some t
    | _ => none

/-- Errors surfaced by the embedded operations:
`runtimeClosing` = `RuntimeError("IOLoop is closing")`,
`attributeNone` = `AttributeError` from using the `None` that `close` stored
in `self._callbacks`,
`fileExists` = the error `epoll.register` raises for an fd that is already
registered with the backend. -/
inductive Err where
  | runtimeClosing : Err
  | attributeNone : Err
  | fileExists : Err
deriving DecidableEq, Repr

/-- The mask `IOLoop.ERROR = _EPOLLERR | _EPOLLHUP`, implicitly added to every
registration (`events | self.ERROR`). -/
def errorMask : Nat := 0x008 ||| 0x010

/-- The constant `_POLL_TIMEOUT = 3600.0`. -/
def pollTimeoutCap : Rat := 3600

/-- Python's builtin `max` on two numbers (kept as an explicit `if` so closed
loop states evaluate by kernel reduction; equal to `max`, see
`ratMax_eq_max`). -/
def ratMax (a b : Rat) : Rat := if a ≤ b then b else a

/-- Python's builtin `min` on two numbers (equal to `min`, see
`ratMin_eq_min`). -/
def ratMin (a b : Rat) : Rat := if a ≤ b then a else b

/-- The state of one `PollIOLoop`:
`handlers` is `self._handlers` (fd to handler body; the owner object is not
modelled), `events` is `self._events`, `callbacks` is `self._callbacks`
(`none` after `close` stores `None`; each queued body is paired with a fresh
sequence number `cbSeq` modelling the identity of the object appended, since
`add_callback` appends a new `functools.partial` object each time),
`timeouts` is `self._timeouts` (the heap, as its sorted sequence; `none`
after `close`), `store` holds the `_Timeout` objects, `cancellations` is
`self._cancellations`, `timeoutCounter` is `self._timeout_counter`,
`threadIdent` is `self._thread_ident` (`none` before `start`), and `impl`
is the set of backend registrations (fd to mask). -/
structure LoopState where
  handlers : List (Nat × Prog) := []
  events : List (Nat × Nat) := []
  callbacks : Option (List (Nat × Prog)) := some []
  cbSeq : Nat := 0
  timeouts : Option (List Entry) := some []
  store : Store := []
  cancellations : Int := 0
  timeoutCounter : Nat := 0
  running : Bool := false
  stopped : Bool := false
  closing : Bool := false
  threadIdent : Option Nat := none
  impl : List (Nat × Nat) := []

/-- A freshly initialized loop (`PollIOLoop.initialize`; the waker fd and its
handler are not modelled). -/
def initState : LoopState := {}

/-- Model of `PollIOLoop.add_handler`: stores the (wrapped) handler in
`self._handlers[fd]` and then registers the fd with the backend, which fails
if the fd is already registered (`epoll.register` raises).  The table write
happens before the backend call, exactly as in the source; on failure the
mutated state is returned together with the error. -/
def addHandler (s : LoopState) (fd : Nat) (h : Prog) (events : Nat) :
    LoopState × Option Err :=
  let s1 := { s with handlers := assocSet s.handlers fd h }
  match assocGet s.impl fd with
  | some _ => (s1, some Err.fileExists)
  | none => ({ s1 with impl := s1.impl ++ [(fd, events ||| errorMask)] }, none)

/-- Model of `PollIOLoop.call_at`: build a `_Timeout` with `deadline`, the next value
of `self._timeout_counter` as tiebreaker and the wrapped callback, push it on
the heap, and return it (here: its tiebreaker) as the handle. -/
def callAt (s : LoopState) (deadline : Rat) (cb : Prog) : LoopState × Nat :=
  let tb := s.timeoutCounter
  ({ s with
      timeoutCounter := tb + 1,
      store := assocSet s.store tb (some cb),
      timeouts := s.timeouts.map (sortedInsert (deadline, tb)) }, tb)

/-- Model of `PollIOLoop.remove_timeout`: set `timeout.callback = None` on the handle's
object and increment `self._cancellations`.  The object is left in place
wherever it is referenced (heap or due list). -/
def removeTimeoutOp (s : LoopState) (tb : Nat) : LoopState :=
  { s with
      store := setStoreNone s.store tb,
      cancellations := s.cancellations + 1 }

/-- Model of `PollIOLoop.add_callback` called from thread `tid`: under the queue lock,
raise if `self._closing`; otherwise append the wrapped callback and report
whether `self._waker.wake()` was invoked (queue was empty before the append
and the caller is not the owner thread).  If `close` already stored `None`
in `self._callbacks` (only possible with `closing` set) the truthiness test
`not self._callbacks` succeeds and the append raises an attribute error. -/
def addCallback (s : LoopState) (tid : Nat) (cb : Prog) :
    Except Err (LoopState × Bool) :=
  if s.closing then Except.error Err.runtimeClosing
  else
    match s.callbacks with
    | none => Except.error Err.attributeNone
    | some l =>
        let wake := l.isEmpty && decide (some tid ≠ s.threadIdent)
        Except.ok
          ({ s with callbacks := some (l ++ [(s.cbSeq, cb)]),
                    cbSeq := s.cbSeq + 1 }, wake)

/-- Model of `PollIOLoop.add_callback_from_signal` called from thread `tid`: on a
non-owner thread it defers to `add_callback`; on the owner thread it appends
directly to `self._callbacks` without the lock and without consulting
`self._closing` (an `AttributeError` results if `close` stored `None`). -/
def addCallbackFromSignal (s : LoopState) (tid : Nat) (cb : Prog) :
    Except Err (LoopState × Bool) :=
  if some tid ≠ s.threadIdent then addCallback s tid cb
  else
    match s.callbacks with
    | none => Except.error Err.attributeNone
    | some l =>
        Except.ok
          ({ s with callbacks := some (l ++ [(s.cbSeq, cb)]),
                    cbSeq := s.cbSeq + 1 }, false)

/-- Model of `PollIOLoop.close` (fd/waker teardown not modelled): sets `self._closing`
under the lock, then stores `None` in `self._callbacks` and
`self._timeouts`. -/
def close (s : LoopState) : LoopState :=
  { s with closing := true, callbacks := none, timeouts := none }

/-- Model of `PollIOLoop.stop`: clear `running`, set `stopped` (the waker write is not
modelled). -/
def stopOp (s : LoopState) : LoopState :=
  { s with running := false, stopped := true }

/-- The entry bookkeeping of `PollIOLoop.start` (error paths for a running
loop aside): a stopped loop returns immediately clearing the flag; otherwise
record the owner thread and set `running`. -/
def startOp (s : LoopState) (tid : Nat) : LoopState :=
  if s.running then s
  else if s.stopped then { s with stopped := false }
  else { s with threadIdent := some tid, running := true }

/-- Execute one action of a callback body running on the loop thread.
`add_callback` from the loop thread never wakes the waker; if it raises
(loop closing), the exception is swallowed by `_run_callback`'s guard. -/
def runAction (s : LoopState) : Action → LoopState × List LogEntry
  | Action.addCallback body =>
      if s.closing then (s, [])
      else
        match s.callbacks with
        | none => (s, [])
        | some l =>
            ({ s with callbacks := some (l ++ [(s.cbSeq, body)]),
                      cbSeq := s.cbSeq + 1 }, [])
  | Action.removeTimeout tb => (removeTimeoutOp s tb, [LogEntry.cancel tb])
  | Action.stop => (stopOp s, [])
  | Action.nop => (s, [])

/-- Execute a callback body action by action. -/
def runProg (s : LoopState) : Prog → LoopState × List LogEntry
  | [] => (s, [])
  | a :: rest =>
      let r1 := runAction s a
      let r2 := runProg r1.1 rest
      (r2.1, r1.2 ++ r2.2)

/-- Step 3a of an iteration: `for callback in callbacks:
self._run_callback(callback)` over the snapshotted queue, logging each
invocation. -/
def runCallbacks (s : LoopState) : List (Nat × Prog) → LoopState × List LogEntry
  | [] => (s, [])
  | (seq, body) :: rest =>
      let r1 := runProg s body
      let r2 := runCallbacks r1.1 rest
      (r2.1, LogEntry.cb seq :: r1.2 ++ r2.2)

/-- Step 3b of an iteration: `for timeout in due_timeouts: if timeout.callback
is not None: self._run_callback(timeout.callback)`; the callback field is
re-read from the (possibly mutated) object store at invocation time. -/
def runDue (s : LoopState) : List Entry → LoopState × List LogEntry
  | [] => (s, [])
  | e :: rest =>
      match lookupStore s.store e.2 with
      | some (some body) =>
          let r1 := runProg s body
          let r2 := runDue r1.1 rest
          (r2.1, LogEntry.timer e.2 :: r1.2 ++ r2.2)
      | _ => runDue s rest

/-- The due-collection while-loop of `PollIOLoop.start`: repeatedly inspect
the heap head; a cancelled head is popped and `self._cancellations`
decremented, a due head is popped onto `due_timeouts`, otherwise stop.
Returns the updated cancellation count, the due list in pop order, and the
remaining heap. -/
def collectDue (store : Store) (cancels : Int) (now : Rat) :
    List Entry → Int × List Entry × List Entry
  | [] => (cancels, [], [])
  | e :: rest =>
      if isCancelled store e.2 then
        collectDue store (cancels - 1) now rest
      else if e.1 ≤ now then
        let r := collectDue store cancels now rest
        (r.1, e :: r.2.1, r.2.2)
      else (cancels, [], e :: rest)

/-- The tombstone-GC check of `PollIOLoop.start`: when
`self._cancellations > 512 and self._cancellations > (len(self._timeouts)
>> 1)`, reset the count to zero and rebuild the heap from the entries whose
callback is not `None`; otherwise leave both unchanged. -/
def gcCheck (store : Store) (cancels : Int) (heap : List Entry) :
    Int × List Entry :=
  if cancels > 512 ∧ cancels > ((heap.length / 2 : Nat) : Int) then
    (0, heapify (heap.filter fun e => ! isCancelled store e.2))
  else (cancels, heap)

/-- Step 2 of an iteration: due collection followed by the GC check, both
only entered when `self._timeouts` is non-empty (they sit under
`if self._timeouts:` in the source).  Returns the updated cancellation count,
the due list and the remaining heap. -/
def collectAndGc (store : Store) (cancels : Int) (now : Rat)
    (heap : List Entry) : Int × List Entry × List Entry :=
  if heap.isEmpty then (cancels, ([], heap))
  else
    let col := collectDue store cancels now heap
    let gc := gcCheck store col.1 col.2.2
    (gc.1, (col.2.1, gc.2))

/-- The loop state after steps 1-2 of an iteration (queue swapped with a
fresh empty list, due timers collected, GC check done), before any callback
runs. -/
def midState (s : LoopState) (heap : List Entry) (now : Rat) : LoopState :=
  { s with
      callbacks := some [],
      cancellations := (collectAndGc s.store s.cancellations now heap).1,
      timeouts := some (collectAndGc s.store s.cancellations now heap).2.2 }

/-- The `due_timeouts` list collected in step 2 of an iteration. -/
def dueOf (s : LoopState) (heap : List Entry) (now : Rat) : List Entry :=
  (collectAndGc s.store s.cancellations now heap).2.1

/-- Steps 1-3 of one iteration of the while-loop in `PollIOLoop.start`, for a
loop whose callback queue holds `cbs` and whose timer heap holds `heap`:
snapshot the callback queue (swap in a fresh empty list), collect due timers
and run the GC check, then run the snapshotted callbacks and the due timers.
Returns the resulting state and the run log. -/
def iterCore (s : LoopState) (cbs : List (Nat × Prog)) (heap : List Entry)
    (now : Rat) : LoopState × List LogEntry :=
  let r1 := runCallbacks (midState s heap now) cbs
  let r2 := runDue r1.1 (dueOf s heap now)
  (r2.1, r1.2 ++ r2.2)

/-- Steps 1-3 of one iteration of the while-loop in `PollIOLoop.start` (see
`iterCore`).  The degenerate branch covers a closed loop (`self._callbacks`
or `self._timeouts` is `None`), on which the source's iteration does not
operate. -/
def iterRun (s : LoopState) (now : Rat) : LoopState × List LogEntry :=
  match s.callbacks, s.timeouts with
  | some cbs, some heap => iterCore s cbs heap now
  | _, _ => (s, [])

/-- Model of `self._events.update(event_pairs)`: dict update, replacing the value of a
present key in place and appending new keys. -/
def mergeEvents (base : List (Nat × Nat)) (pairs : List (Nat × Nat)) :
    List (Nat × Nat) :=
  pairs.foldl (fun acc p => assocSet acc p.1 p.2) base

/-- Step 7 of an iteration, with the pending-events map already reversed so
that the head is the entry `dict.popitem` removes (the most recently
inserted): pop one `(fd, events)` pair at a time and run its handler; a
missing handler raises a `KeyError` that the surrounding `except` clause
reports and swallows. -/
def dispatchRev (s : LoopState) : List (Nat × Nat) → LoopState × List LogEntry
  | [] => (s, [])
  | (fd, _) :: rest =>
      match assocGet s.handlers fd with
      | some h =>
          let r1 := runProg s h
          let r2 := dispatchRev r1.1 rest
          (r2.1, LogEntry.handler fd :: r1.2 ++ r2.2)
      | none => dispatchRev s rest

/-- One full iteration of the while-loop in `PollIOLoop.start`.  The two
clock samples (`now` at due-collection, `now2` at poll-timeout computation)
and the backend poll result are environmental parameters.  Returns the final
state, the log, and `some` poll timeout if the backend was actually polled
(`none` when the `running` check broke out of the loop first).  The
blocking-signal watchdog and the EINTR retry are not modelled. -/
def iterate (s : LoopState) (now now2 : Rat) (pollResult : List (Nat × Nat)) :
    LoopState × List LogEntry × Option Rat :=
  let r1 := iterRun s now
  let s1 := r1.1
  let pt :=
    if (s1.callbacks.getD []).isEmpty then
      match s1.timeouts.getD [] with
      | [] => pollTimeoutCap
      | e :: _ => ratMax 0 (ratMin (e.1 - now2) pollTimeoutCap)
    else (0 : Rat)
  if s1.running = false then (s1, r1.2, none)
  else
    let r2 := dispatchRev { s1 with events := [] }
        (mergeEvents s1.events pollResult).reverse
    (r2.1, r1.2 ++ r2.2, some pt)

/-- The environment of one loop iteration: the two clock samples and the
backend poll result. -/
structure EnvStep where
  now : Rat
  now2 : Rat
  poll : List (Nat × Nat)
deriving Repr

/-- Run the `while True` loop of `PollIOLoop.start` for (at most) the given
iterations' environments, accumulating the log.  As in the source, every
entered iteration runs its full snapshot/timer phases unconditionally; the
loop ends exactly when an iteration's mid-body `if not self._running: break`
fires (which `iterate` signals by returning no poll timeout, having skipped
the poll and dispatch) — so a `stop()` issued during one iteration still
lets the next iteration run its snapshotted callbacks and due timers before
the loop exits, and any remaining environments are unused. -/
def runLoop (s : LoopState) : List EnvStep → LoopState × List LogEntry
  | [] => (s, [])
  | e :: rest =>
      let r1 := iterate s e.now e.now2 e.poll
      match r1.2.2 with
      | none => (r1.1, r1.2.1)
      | some _ =>
          let r2 := runLoop r1.1 rest
          (r2.1, r1.2.1 ++ r2.2)

/-- The number of tombstones among the entries of `heap`, per the object
store `store`. -/
def tcount (store : Store) (heap : List Entry) : Nat :=
  (heap.filter fun e => isCancelled store e.2).length

/-- The number of tombstones in the heap: entries of `self._timeouts` whose
object's callback is `None`. -/
def tombstoneCount (s : LoopState) : Nat :=
  tcount s.store (s.timeouts.getD [])

/-- Relation between loop states: code running on the loop thread only ever
appends to the callback queue, with fresh sequence numbers at or above the
starting `cbSeq`. -/
def QueueExtends (s s' : LoopState) : Prop :=
  s.cbSeq ≤ s'.cbSeq ∧
  (s.callbacks = none → s'.callbacks = none) ∧
  ∀ l, s.callbacks = some l →
    ∃ new, s'.callbacks = some (l ++ new) ∧ ∀ p ∈ new, s.cbSeq ≤ p.1

/-- Timer `tb` has no live callback in `s`: its object was cancelled, or no
such object exists. -/
def NoLive (s : LoopState) (tb : Nat) : Prop :=
  ∀ p, lookupStore s.store tb ≠ some (some p)

/-- The cancellation discipline of one execution step from `s` to `s'`
producing log `L`, with respect to timer `tb`: deadness of `tb` is preserved,
a logged cancellation of `tb` establishes it, a dead timer is never invoked,
and no invocation of `tb` occurs after a cancellation of `tb` within `L`. -/
def CancelFacts (tb : Nat) (s s' : LoopState) (L : List LogEntry) : Prop :=
  (NoLive s tb → NoLive s' tb) ∧
  (LogEntry.cancel tb ∈ L → NoLive s' tb) ∧
  (NoLive s tb → LogEntry.timer tb ∉ L) ∧
  ∀ l1 l2, L = l1 ++ LogEntry.cancel tb :: l2 → LogEntry.timer tb ∉ l2

/-- The loop invariants tying the cancellation counter to the heap: the
counter bounds the number of heap tombstones from above, heap tiebreakers
are below the tiebreaker counter (freshness), and heap tiebreakers are
pairwise distinct. -/
def HeapInvariant (s : LoopState) : Prop :=
  (tombstoneCount s : Int) ≤ s.cancellations ∧
  (∀ e ∈ s.timeouts.getD ([] : List Entry), e.2 < s.timeoutCounter) ∧
  ((s.timeouts.getD ([] : List Entry)).map Prod.snd).Nodup

/-- The heap property on the sorted-sequence representation: the heap is
sorted by `_Timeout.__le__`. -/
def HeapSorted (s : LoopState) : Prop :=
  (s.timeouts.getD ([] : List Entry)).Pairwise leKey

/-- Every queued callback's sequence number is below the queue's sequence
counter (so sequence numbers handed out later are fresh). -/
def QueueSeqBound (s : LoopState) : Prop :=
  ∀ p ∈ s.callbacks.getD ([] : List (Nat × Prog)), p.1 < s.cbSeq

/-- The states reachable from a fresh loop by the embedded operations:
starting/stopping the loop, scheduling and cancelling timers, queueing
callbacks (from any thread), registering handlers, closing, and running loop
iterations under arbitrary environments. -/
inductive Reachable : LoopState → Prop where
  | init : Reachable initState
  | start : ∀ {s} (tid : Nat), Reachable s → Reachable (startOp s tid)
  | stop : ∀ {s}, Reachable s → Reachable (stopOp s)
  | callAt : ∀ {s} (d : Rat) (cb : Prog), Reachable s → Reachable (callAt s d cb).1
  | removeTimeout : ∀ {s} (tb : Nat), Reachable s → Reachable (removeTimeoutOp s tb)
  | addCallback : ∀ {s s' : LoopState} {w : Bool} (tid : Nat) (cb : Prog),
      Reachable s → addCallback s tid cb = Except.ok (s', w) → Reachable s'
  | addCallbackFromSignal : ∀ {s s' : LoopState} {w : Bool} (tid : Nat) (cb : Prog),
      Reachable s → addCallbackFromSignal s tid cb = Except.ok (s', w) → Reachable s'
  | addHandler : ∀ {s} (fd : Nat) (h : Prog) (ev : Nat),
      Reachable s → Reachable (addHandler s fd h ev).1
  | close : ∀ {s}, Reachable s → Reachable (close s)
  | iterate : ∀ {s} (now now2 : Rat) (pollResult : List (Nat × Nat)),
      Reachable s → Reachable (iterate s now now2 pollResult).1

/-- Model of `PeriodicCallback._schedule_next` (clock value passed explicitly, exact
rational arithmetic in place of floats): when running, if the stored
`_next_timeout` is not in the future, advance it by
`floor((current_time - _next_timeout) / (callback_time / 1000)) + 1` periods;
then schedule a one-shot timer at the (possibly updated) `_next_timeout`.
Returns the new `_next_timeout`, which is also the scheduled deadline, or
`none` when not running (no timer scheduled). -/
def scheduleNext (running : Bool) (nextTimeout callbackTime currentTime : Rat) :
    Option Rat :=
  if running then
    if nextTimeout ≤ currentTime then
      let sec := callbackTime / 1000
      some (nextTimeout + (((⌊(currentTime - nextTimeout) / sec⌋ : Int) : Rat) + 1) * sec)
    else some nextTimeout
  else none

instance : IsTotal Entry leKey :=
  ⟨by
    intro a b
    rcases lt_trichotomy a.1 b.1 with h | h | h
    · exact Or.inl (Or.inl h)
    · rcases Nat.le_total a.2 b.2 with h2 | h2
      · exact Or.inl (Or.inr ⟨h, h2⟩)
      · exact Or.inr (Or.inr ⟨h.symm, h2⟩)
    · exact Or.inr (Or.inl h)⟩

instance : IsTrans Entry leKey :=
  ⟨by
    intro a b c hab hbc
    rcases hab with h | ⟨he, hn⟩ <;> rcases hbc with h' | ⟨he', hn'⟩
    · exact Or.inl (h.trans h')
    · exact Or.inl (he' ▸ h)
    · exact Or.inl (he ▸ h')
    · exact Or.inr ⟨he.trans he', hn.trans hn'⟩⟩

/-- The loop after `start`, `call_at(0, cb0)` and `call_at(0, cb1)`, where
`cb0` cancels the handle of the second timer: both timers are due at time 0,
`cb0` runs first, and its cancellation hits a timer that has already been
popped off the heap. -/
def c5Cex : LoopState :=
  (callAt (callAt (startOp initState 7) 0 [Action.removeTimeout 1]).1
    0 [Action.nop]).1

theorem heapify_perm (l : List Entry) : List.Perm (heapify l) l :=
  List.perm_insertionSort leKey l

theorem heapify_sorted (l : List Entry) : List.Pairwise leKey (heapify l) :=
  List.sorted_insertionSort leKey l

/-- C8: the tombstone GC rebuilds the heap (exactly the live entries, sorted)
and resets the counter exactly when the cancellation count exceeds 512 and
exceeds half the heap size; otherwise it changes nothing.  `iterRun` invokes
this check right after the due-collection pass whenever the heap was
non-empty at the start of the iteration. -/
theorem tombstone_gc_exact (store : Store) (c : Int) (heap : List Entry) :
    (c > 512 ∧ c > ((heap.length / 2 : Nat) : Int) →
      (gcCheck store c heap).1 = 0 ∧
      List.Perm (gcCheck store c heap).2
        (heap.filter fun e => ! isCancelled store e.2) ∧
      List.Pairwise leKey (gcCheck store c heap).2) ∧
    (¬ (c > 512 ∧ c > ((heap.length / 2 : Nat) : Int)) →
      gcCheck store c heap = (c, heap)) := by
  constructor
  · intro hcond
    unfold gcCheck
    rw [if_pos hcond]
    exact ⟨rfl, heapify_perm _, heapify_sorted _⟩
  · intro hcond
    unfold gcCheck
    rw [if_neg hcond]

theorem tombstone_gc_exact_witness :
    (gcCheck [] 600 []).1 = 0 ∧ gcCheck [] 5 [] = (5, []) :=
  ⟨((tombstone_gc_exact [] 600 []).1 ⟨by decide, by decide⟩).1,
   (tombstone_gc_exact [] 5 []).2 (by decide)⟩

/-- C6: a successful `add_callback` appends the callback to the queue and
wakes the waker exactly when the queue was empty before the append and the
calling thread is not the owner thread. -/
theorem add_callback_wake_iff (s : LoopState) (tid : Nat) (cb : Prog)
    (l : List (Nat × Prog)) (hcl : s.closing = false) (hq : s.callbacks = some l) :
    ∃ w : Bool,
      addCallback s tid cb =
        Except.ok ({ s with callbacks := some (l ++ [(s.cbSeq, cb)]),
                            cbSeq := s.cbSeq + 1 }, w) ∧
      (w = true ↔ (l = [] ∧ s.threadIdent ≠ some tid)) := by
  refine ⟨l.isEmpty && decide (some tid ≠ s.threadIdent), ?_, ?_⟩
  · simp [addCallback, hcl, hq]
  · simp [List.isEmpty_iff, Bool.and_eq_true, decide_eq_true_iff, ne_comm]

theorem add_callback_wake_iff_witness :
    ∃ w : Bool,
      addCallback { threadIdent := some 4 } 9 [Action.nop] =
        Except.ok ({ threadIdent := some 4,
                     callbacks := some [(0, [Action.nop])], cbSeq := 1 }, w) ∧
      (w = true ↔ ([] = ([] : List (Nat × Prog)) ∧
        (some 4 : Option Nat) ≠ some 9)) := by
  have h := add_callback_wake_iff { threadIdent := some 4 } 9 [Action.nop] [] rfl rfl
  simpa using h

/-- C10 counterexample: once `close()` has fully run (the closing flag is set
and `None` is stored in the queue), `add_callback_from_signal` on the owner
thread does not succeed: the direct append hits the `None` queue and raises
an `AttributeError`. -/
theorem signal_callback_after_close_fails :
    addCallbackFromSignal (close { threadIdent := some 5 }) 5 [Action.nop] =
      Except.error Err.attributeNone := by rfl

/-- C10 amended: on the owner thread, while the callback queue has not yet
been discarded, `add_callback_from_signal` appends directly (no wake, no
closing check) and succeeds even with the closing flag set, whereas
`add_callback` raises the closing error. -/
theorem signal_callback_ignores_closing (s : LoopState) (tid : Nat) (cb : Prog)
    (l : List (Nat × Prog)) (howner : s.threadIdent = some tid)
    (hcl : s.closing = true) (hq : s.callbacks = some l) :
    addCallbackFromSignal s tid cb =
      Except.ok ({ s with callbacks := some (l ++ [(s.cbSeq, cb)]),
                          cbSeq := s.cbSeq + 1 }, false) ∧
    addCallback s tid cb = Except.error Err.runtimeClosing := by
  constructor
  · simp [addCallbackFromSignal, howner, hq]
  · simp [addCallback, hcl]

theorem signal_callback_ignores_closing_witness :
    addCallbackFromSignal { threadIdent := some 5, closing := true } 5 [Action.nop] =
      Except.ok ({ threadIdent := some 5, closing := true,
                   callbacks := some [(0, [Action.nop])], cbSeq := 1 }, false) ∧
    addCallback { threadIdent := some 5, closing := true } 5 [Action.nop] =
      Except.error Err.runtimeClosing := by
  have h := signal_callback_ignores_closing
    { threadIdent := some 5, closing := true } 5 [Action.nop] [] rfl rfl rfl
  simpa using h

/-- C4 counterexample: calling `add_handler` for an fd already in the handler
table does not leave the existing table entry unchanged, refuting the claim:
the entry is overwritten with the new handler before the backend register
call fails. -/
theorem add_handler_duplicate_counterexample :
    (addHandler { handlers := [(3, [])], impl := [(3, 25)] } 3 [Action.nop] 1).1.handlers ≠
      ({ handlers := [(3, [])], impl := [(3, 25)] } : LoopState).handlers := by
  intro h
  have h' : ((3:Nat), ([Action.nop] : Prog)) :: ([] : List (Nat × Prog)) =
      ((3:Nat), ([] : Prog)) :: [] := h
  injection h' with h1 h2
  injection h1 with ha hb
  cases hb

/-- C4 amended: for an fd already registered with the backend, `add_handler`
first overwrites the table entry with the new handler and then fails with the
backend's already-registered error, leaving the backend registrations
unchanged; no `AlreadyRegistered` check is performed by the loop itself. -/
theorem add_handler_overwrites_on_duplicate (s : LoopState) (fd : Nat)
    (h : Prog) (ev : Nat) (hreg : (assocGet s.impl fd).isSome = true) :
    (addHandler s fd h ev).2 = some Err.fileExists ∧
    (addHandler s fd h ev).1.handlers = assocSet s.handlers fd h ∧
    (addHandler s fd h ev).1.impl = s.impl := by
  unfold addHandler
  cases hh : assocGet s.impl fd with
  | none => rw [hh] at hreg; cases hreg
  | some m => simp

theorem add_handler_overwrites_on_duplicate_witness :
    (addHandler { handlers := [(3, [])], impl := [(3, 25)] } 3 [Action.nop] 1).2
        = some Err.fileExists ∧
    (addHandler { handlers := [(3, [])], impl := [(3, 25)] } 3 [Action.nop] 1).1.handlers
        = assocSet [(3, [])] 3 [Action.nop] ∧
    (addHandler { handlers := [(3, [])], impl := [(3, 25)] } 3 [Action.nop] 1).1.impl
        = [(3, 25)] :=
  add_handler_overwrites_on_duplicate
    { handlers := [(3, [])], impl := [(3, 25)] } 3 [Action.nop] 1 rfl

theorem ratMax_eq_max (a b : Rat) : ratMax a b = max a b := by
  unfold ratMax
  rcases le_total a b with h | h
  · rw [if_pos h, max_eq_right h]
  · rcases lt_or_eq_of_le h with h' | h'
    · rw [if_neg (not_le.mpr h'), max_eq_left h]
    · subst h'
      simp

theorem ratMin_eq_min (a b : Rat) : ratMin a b = min a b := by
  unfold ratMin
  rcases le_total a b with h | h
  · rw [if_pos h, min_eq_left h]
  · rcases lt_or_eq_of_le h with h' | h'
    · rw [if_neg (not_le.mpr h'), min_eq_right h]
    · subst h'
      simp

/-- C9: while running, `_schedule_next` leaves a future `_next_timeout`
unchanged and advances an overdue one by `floor((now - next)/period) + 1`
periods, scheduling a one-shot timer there; the new value stays on the
original grid (`next + k * period` with `k ≥ 1`) and is the first grid point
strictly after `now`. -/
theorem periodic_schedule_next_grid (nt cbTime now : Rat) (hpos : 0 < cbTime) :
    (nt ≤ now →
      scheduleNext true nt cbTime now =
        some (nt + ((⌊(now - nt) / (cbTime / 1000)⌋ : Rat) + 1) * (cbTime / 1000)) ∧
      (∃ k : Int, 1 ≤ k ∧
        (scheduleNext true nt cbTime now).getD 0 = nt + (k : Rat) * (cbTime / 1000)) ∧
      now < (scheduleNext true nt cbTime now).getD 0 ∧
      (scheduleNext true nt cbTime now).getD 0 - cbTime / 1000 ≤ now) ∧
    (now < nt → scheduleNext true nt cbTime now = some nt) := by
  have hp : (0 : Rat) < cbTime / 1000 := by positivity
  constructor
  · intro hle
    have heq : scheduleNext true nt cbTime now =
        some (nt + ((⌊(now - nt) / (cbTime / 1000)⌋ : Rat) + 1) * (cbTime / 1000)) := by
      simp [scheduleNext, hle]
    have hfl : ((⌊(now - nt) / (cbTime / 1000)⌋ : Rat)) ≤ (now - nt) / (cbTime / 1000) :=
      Int.floor_le _
    have hfu : (now - nt) / (cbTime / 1000) < (⌊(now - nt) / (cbTime / 1000)⌋ : Rat) + 1 :=
      Int.lt_floor_add_one _
    have hmul : (now - nt) / (cbTime / 1000) * (cbTime / 1000) = now - nt :=
      div_mul_cancel₀ _ (ne_of_gt hp)
    refine ⟨heq, ?_, ?_, ?_⟩
    · refine ⟨⌊(now - nt) / (cbTime / 1000)⌋ + 1, ?_, ?_⟩
      · have h0 : (0 : Int) ≤ ⌊(now - nt) / (cbTime / 1000)⌋ :=
          Int.floor_nonneg.mpr (div_nonneg (sub_nonneg.mpr hle) hp.le)
        omega
      · rw [heq]
        simp only [Option.getD_some]
        push_cast
        ring
    · rw [heq]
      simp only [Option.getD_some]
      have := mul_lt_mul_of_pos_right hfu hp
      rw [hmul] at this
      linarith
    · rw [heq]
      simp only [Option.getD_some]
      have := mul_le_mul_of_nonneg_right hfl hp.le
      rw [hmul] at this
      nlinarith [this]
  · intro hgt
    simp [scheduleNext, not_le.mpr hgt]

theorem periodic_schedule_next_grid_witness :
    (0 : Rat) < 10000 ∧ (0 : Rat) ≤ 35 ∧
    (35 : Rat) < (scheduleNext true 0 10000 35).getD 0 ∧
    (scheduleNext true 0 10000 35).getD 0 - 10000 / 1000 ≤ 35 :=
  ⟨by decide, by decide,
   ((periodic_schedule_next_grid 0 10000 35 (by decide)).1 (by decide)).2.2.1,
   ((periodic_schedule_next_grid 0 10000 35 (by decide)).1 (by decide)).2.2.2⟩

/-- C5 counterexample: after the iteration that runs both due timers, the
cancellation counter is 1 although the heap contains no tombstone at all
(the cancelled timer was already out of the heap), so the counter does not
equal the number of nil-callback heap entries. -/
theorem cancellation_count_overcounts :
    (iterate c5Cex 0 0 []).1.cancellations = 1 ∧
    tombstoneCount (iterate c5Cex 0 0 []).1 = 0 := ⟨rfl, rfl⟩

/-- C7: whenever an iteration reaches the backend poll, the timeout it passes
equals 0 if the callback queue is non-empty after running this iteration's
callbacks and timers, else the clamped time to the heap's next deadline, else
the 3600 s cap. -/
theorem poll_timeout_formula (s : LoopState) (now now2 : Rat)
    (evs : List (Nat × Nat)) (pt : Rat)
    (h : (iterate s now now2 evs).2.2 = some pt) :
    ((iterRun s now).1.callbacks.getD [] ≠ [] → pt = 0) ∧
    ((iterRun s now).1.callbacks.getD [] = [] →
      (iterRun s now).1.timeouts.getD [] = [] → pt = pollTimeoutCap) ∧
    (∀ d tb rest, (iterRun s now).1.callbacks.getD [] = [] →
      (iterRun s now).1.timeouts.getD [] = (d, tb) :: rest →
      pt = ratMax 0 (ratMin (d - now2) pollTimeoutCap)) := by
  rw [iterate] at h
  split at h
  · simp at h
  · simp only [Option.some.injEq] at h
    refine ⟨?_, ?_, ?_⟩
    · intro hne
      rw [← h]
      have : ((iterRun s now).1.callbacks.getD []).isEmpty = false := by
        cases hc : (iterRun s now).1.callbacks.getD [] with
        | nil => exact absurd hc hne
        | cons a t => rfl
      simp [this]
    · intro h1 h2
      rw [← h]
      simp [h1, h2]
    · intro d tb rest h1 h2
      rw [← h]
      simp [h1, h2]

theorem poll_timeout_formula_witness :
    (iterate { running := true,
               callbacks := some [(0, [Action.addCallback []])] } 0 0 []).2.2
      = some 0 ∧
    (iterRun { running := true,
               callbacks := some [(0, [Action.addCallback []])] } 0).1.callbacks.getD [] ≠ [] ∧
    (0 : Rat) = 0 :=
  ⟨rfl, List.cons_ne_nil _ _,
   (poll_timeout_formula
      { running := true, callbacks := some [(0, [Action.addCallback []])] }
      0 0 [] 0 rfl).1 (List.cons_ne_nil _ _)⟩

theorem queueExtends_of_eq {s s' : LoopState} (h1 : s'.callbacks = s.callbacks)
    (h2 : s'.cbSeq = s.cbSeq) : QueueExtends s s' := by
  refine ⟨h2.ge, fun h => h1.trans h, ?_⟩
  intro l hl
  exact ⟨[], by rw [h1, hl, List.append_nil], by simp⟩

theorem queueExtends_trans {s1 s2 s3 : LoopState}
    (h : QueueExtends s1 s2) (g : QueueExtends s2 s3) : QueueExtends s1 s3 := by
  obtain ⟨h1, h2, h3⟩ := h
  obtain ⟨g1, g2, g3⟩ := g
  refine ⟨h1.trans g1, fun hn => g2 (h2 hn), ?_⟩
  intro l hl
  obtain ⟨n1, hn1, hp1⟩ := h3 l hl
  obtain ⟨n2, hn2, hp2⟩ := g3 _ hn1
  refine ⟨n1 ++ n2, by rw [hn2, List.append_assoc], ?_⟩
  intro p hp
  rcases List.mem_append.mp hp with hm | hm
  · exact hp1 p hm
  · exact h1.trans (hp2 p hm)

theorem runAction_queueExtends (s : LoopState) (a : Action) :
    QueueExtends s (runAction s a).1 := by
  cases a with
  | addCallback body =>
      simp only [runAction]
      by_cases hc : s.closing
      · rw [if_pos hc]
        exact queueExtends_of_eq rfl rfl
      · rw [if_neg hc]
        cases hq : s.callbacks with
        | none => exact queueExtends_of_eq rfl rfl
        | some l =>
            refine ⟨Nat.le_succ _, ?_, ?_⟩
            · intro h
              rw [h] at hq
              cases hq
            · intro l' hl'
              rw [hq] at hl'
              injection hl' with hll
              subst hll
              exact ⟨[(s.cbSeq, body)], rfl, by simp⟩
  | removeTimeout tb => exact queueExtends_of_eq rfl rfl
  | stop => exact queueExtends_of_eq rfl rfl
  | nop => exact queueExtends_of_eq rfl rfl

theorem runProg_queueExtends (s : LoopState) (p : Prog) :
    QueueExtends s (runProg s p).1 := by
  induction p generalizing s with
  | nil => exact queueExtends_of_eq rfl rfl
  | cons a rest ih =>
      exact queueExtends_trans (runAction_queueExtends s a) (ih (runAction s a).1)

theorem runCallbacks_queueExtends (s : LoopState) (l : List (Nat × Prog)) :
    QueueExtends s (runCallbacks s l).1 := by
  induction l generalizing s with
  | nil => exact queueExtends_of_eq rfl rfl
  | cons p rest ih =>
      obtain ⟨seq, body⟩ := p
      exact queueExtends_trans (runProg_queueExtends s body) (ih (runProg s body).1)

theorem runDue_queueExtends (s : LoopState) (due : List Entry) :
    QueueExtends s (runDue s due).1 := by
  induction due generalizing s with
  | nil => exact queueExtends_of_eq rfl rfl
  | cons e rest ih =>
      simp only [runDue]
      cases h : lookupStore s.store e.2 with
      | none => exact ih s
      | some ob =>
          cases ob with
          | none => exact ih s
          | some body =>
              exact queueExtends_trans (runProg_queueExtends s body)
                (ih (runProg s body).1)

theorem dispatchRev_queueExtends (s : LoopState) (l : List (Nat × Nat)) :
    QueueExtends s (dispatchRev s l).1 := by
  induction l generalizing s with
  | nil => exact queueExtends_of_eq rfl rfl
  | cons e rest ih =>
      obtain ⟨fd, ev⟩ := e
      simp only [dispatchRev]
      cases h : assocGet s.handlers fd with
      | none => exact ih s
      | some body =>
          exact queueExtends_trans (runProg_queueExtends s body)
            (ih (runProg s body).1)

theorem runAction_log_cancel (s : LoopState) (a : Action) :
    ∀ e ∈ (runAction s a).2, ∃ tb, e = LogEntry.cancel tb := by
  cases a with
  | addCallback body =>
      simp only [runAction]
      by_cases hc : s.closing
      · rw [if_pos hc]
        intro e he
        simp at he
      · rw [if_neg hc]
        cases s.callbacks <;> intro e he <;> simp at he
  | removeTimeout tb =>
      intro e he
      simp only [runAction, List.mem_singleton] at he
      exact ⟨tb, he⟩
  | stop =>
      intro e he
      simp [runAction] at he
  | nop =>
      intro e he
      simp [runAction] at he

theorem runProg_log_cancel (s : LoopState) (p : Prog) :
    ∀ e ∈ (runProg s p).2, ∃ tb, e = LogEntry.cancel tb := by
  induction p generalizing s with
  | nil =>
      intro e he
      simp [runProg] at he
  | cons a rest ih =>
      intro e he
      simp only [runProg] at he
      rcases List.mem_append.mp he with h | h
      · exact runAction_log_cancel s a e h
      · exact ih (runAction s a).1 e h

theorem runCallbacks_log_classify (s : LoopState) (l : List (Nat × Prog)) :
    ∀ e ∈ (runCallbacks s l).2,
      (∃ seq, e = LogEntry.cb seq ∧ seq ∈ l.map Prod.fst) ∨
      ∃ tb, e = LogEntry.cancel tb := by
  induction l generalizing s with
  | nil =>
      intro e he
      simp [runCallbacks] at he
  | cons p rest ih =>
      obtain ⟨seq, body⟩ := p
      intro e he
      simp only [runCallbacks] at he
      rcases List.mem_cons.mp he with h | h
      · exact Or.inl ⟨seq, h, by simp⟩
      · rcases List.mem_append.mp h with h2 | h2
        · exact Or.inr (runProg_log_cancel _ _ e h2)
        · rcases ih (runProg s body).1 e h2 with ⟨sq, hq1, hq2⟩ | hc
          · exact Or.inl ⟨sq, hq1, by simp [hq2]⟩
          · exact Or.inr hc

theorem runCallbacks_runs_all (s : LoopState) (l : List (Nat × Prog)) :
    ∀ p ∈ l, LogEntry.cb p.1 ∈ (runCallbacks s l).2 := by
  induction l generalizing s with
  | nil =>
      intro p hp
      cases hp
  | cons q rest ih =>
      obtain ⟨seq, body⟩ := q
      intro p hp
      simp only [runCallbacks]
      rcases List.mem_cons.mp hp with h | h
      · subst h
        exact List.mem_cons_self _ _
      · exact List.mem_cons_of_mem _
          (List.mem_append_right _ (ih (runProg s body).1 p h))

theorem runDue_log_classify (s : LoopState) (due : List Entry) :
    ∀ e ∈ (runDue s due).2,
      (∃ tb, e = LogEntry.timer tb) ∨ ∃ tb, e = LogEntry.cancel tb := by
  induction due generalizing s with
  | nil =>
      intro e he
      simp [runDue] at he
  | cons en rest ih =>
      intro e he
      simp only [runDue] at he
      revert he
      cases h : lookupStore s.store en.2 with
      | none => exact fun he => ih s e he
      | some ob =>
          cases ob with
          | none => exact fun he => ih s e he
          | some body =>
              intro he
              rcases List.mem_cons.mp he with h1 | h1
              · exact Or.inl ⟨en.2, h1⟩
              · rcases List.mem_append.mp h1 with h2 | h2
                · exact Or.inr (runProg_log_cancel _ _ e h2)
                · exact ih (runProg s body).1 e h2

theorem dispatchRev_log_classify (s : LoopState) (l : List (Nat × Nat)) :
    ∀ e ∈ (dispatchRev s l).2,
      (∃ fd, e = LogEntry.handler fd) ∨ ∃ tb, e = LogEntry.cancel tb := by
  induction l generalizing s with
  | nil =>
      intro e he
      simp [dispatchRev] at he
  | cons en rest ih =>
      obtain ⟨fd, ev⟩ := en
      intro e he
      simp only [dispatchRev] at he
      revert he
      cases h : assocGet s.handlers fd with
      | none => exact fun he => ih s e he
      | some body =>
          intro he
          rcases List.mem_cons.mp he with h1 | h1
          · exact Or.inl ⟨fd, h1⟩
          · rcases List.mem_append.mp h1 with h2 | h2
            · exact Or.inr (runProg_log_cancel _ _ e h2)
            · exact ih (runProg s body).1 e h2

theorem phases_snapshot (s1 : LoopState) (cbs : List (Nat × Prog))
    (due : List Entry) (hq1 : s1.callbacks = some []) :
    (∀ p ∈ cbs, LogEntry.cb p.1 ∈
      (runCallbacks s1 cbs).2 ++ (runDue (runCallbacks s1 cbs).1 due).2) ∧
    (∀ seq, LogEntry.cb seq ∈
      (runCallbacks s1 cbs).2 ++ (runDue (runCallbacks s1 cbs).1 due).2 →
      seq ∈ cbs.map Prod.fst) ∧
    (∃ n, (runDue (runCallbacks s1 cbs).1 due).1.callbacks = some n ∧
      ∀ p ∈ n, s1.cbSeq ≤ p.1) ∧
    s1.cbSeq ≤ (runDue (runCallbacks s1 cbs).1 due).1.cbSeq := by
  have hQ := queueExtends_trans (runCallbacks_queueExtends s1 cbs)
    (runDue_queueExtends (runCallbacks s1 cbs).1 due)
  obtain ⟨hseq, -, hext⟩ := hQ
  obtain ⟨n, hn, hpn⟩ := hext [] hq1
  refine ⟨?_, ?_, ⟨n, by simpa using hn, hpn⟩, hseq⟩
  · intro p hp
    exact List.mem_append_left _ (runCallbacks_runs_all s1 cbs p hp)
  · intro seq hm
    rcases List.mem_append.mp hm with h | h
    · rcases runCallbacks_log_classify s1 cbs _ h with ⟨sq, h1, h2⟩ | ⟨tb, h1⟩
      · injection h1 with h1'
        subst h1'
        exact h2
      · cases h1
    · rcases runDue_log_classify _ due _ h with ⟨tb, h1⟩ | ⟨tb, h1⟩ <;> cases h1

theorem iterCore_snapshot (s : LoopState) (cbs : List (Nat × Prog))
    (heap : List Entry) (now : Rat) :
    (∀ p ∈ cbs, LogEntry.cb p.1 ∈ (iterCore s cbs heap now).2) ∧
    (∀ seq, LogEntry.cb seq ∈ (iterCore s cbs heap now).2 →
      seq ∈ cbs.map Prod.fst) ∧
    (∃ n, (iterCore s cbs heap now).1.callbacks = some n ∧
      ∀ p ∈ n, s.cbSeq ≤ p.1) ∧
    s.cbSeq ≤ (iterCore s cbs heap now).1.cbSeq :=
  phases_snapshot (midState s heap now) cbs (dueOf s heap now) rfl

theorem iterRun_eq_core (s : LoopState) (now : Rat) (cbs : List (Nat × Prog))
    (heap : List Entry) (hq : s.callbacks = some cbs)
    (ht : s.timeouts = some heap) :
    iterRun s now = iterCore s cbs heap now := by
  unfold iterRun
  rw [hq, ht]

/-- C1: one loop iteration snapshots the queue before running anything: every
callback in the queue at the start of the iteration is invoked in this
iteration, while every callback enqueued by `add_callback` during the
iteration (by a snapshotted callback, a due timer, or an fd handler) sits in
the fresh queue with a new sequence number, is not invoked in this
iteration, and — being in the queue the next iteration snapshots — runs no
earlier than the next iteration (apply the first conjunct to the resulting
state). -/
theorem callback_snapshot_defers (s : LoopState) (now now2 : Rat)
    (evs : List (Nat × Nat)) (cbs : List (Nat × Prog)) (heap : List Entry)
    (hq : s.callbacks = some cbs) (ht : s.timeouts = some heap)
    (hseq : ∀ p ∈ cbs, p.1 < s.cbSeq) :
    (∀ p ∈ cbs, LogEntry.cb p.1 ∈ (iterate s now now2 evs).2.1) ∧
    (∀ q ∈ (iterate s now now2 evs).1.callbacks.getD [],
      s.cbSeq ≤ q.1 ∧ LogEntry.cb q.1 ∉ (iterate s now now2 evs).2.1) := by
  have hrun := iterRun_eq_core s now cbs heap hq ht
  obtain ⟨hA, hB, ⟨n, hn, hpn⟩, hD⟩ := iterCore_snapshot s cbs heap now
  simp only [iterate, hrun]
  by_cases hr : (iterCore s cbs heap now).1.running = false
  · rw [if_pos hr]
    refine ⟨hA, ?_⟩
    intro q hqm
    rw [hn] at hqm
    simp only [Option.getD_some] at hqm
    refine ⟨hpn q hqm, ?_⟩
    intro habs
    have := hB q.1 habs
    obtain ⟨p, hp1, hp2⟩ := List.mem_map.mp this
    exact absurd (hp2 ▸ hseq p hp1) (Nat.not_lt.mpr (hpn q hqm))
  · rw [if_neg hr]
    set s' : LoopState := { (iterCore s cbs heap now).1 with events := [] } with hs'
    set ev2 := (mergeEvents (iterCore s cbs heap now).1.events evs).reverse with hev
    obtain ⟨hseq2, -, hext2⟩ := dispatchRev_queueExtends s' ev2
    have hs'cb : s'.callbacks = some n := hn
    obtain ⟨n2, hn2, hpn2⟩ := hext2 n hs'cb
    constructor
    · intro p hp
      exact List.mem_append_left _ (hA p hp)
    · intro q hqm
      rw [hn2] at hqm
      simp only [Option.getD_some] at hqm
      have hqge : s.cbSeq ≤ q.1 := by
        rcases List.mem_append.mp hqm with hm | hm
        · exact hpn q hm
        · exact hD.trans (hpn2 q hm)
      refine ⟨hqge, ?_⟩
      intro habs
      rcases List.mem_append.mp habs with hm | hm
      · have := hB q.1 hm
        obtain ⟨p, hp1, hp2⟩ := List.mem_map.mp this
        exact absurd (hp2 ▸ hseq p hp1) (Nat.not_lt.mpr hqge)
      · rcases dispatchRev_log_classify s' ev2 _ hm with ⟨fd, h1⟩ | ⟨tb, h1⟩ <;> cases h1

theorem callback_snapshot_defers_witness :
    LogEntry.cb 0 ∈
      (iterate { running := true,
                 callbacks := some [(0, [Action.addCallback [Action.nop]])],
                 cbSeq := 1 } 0 0 []).2.1 ∧
    ∀ q ∈ (iterate { running := true,
                     callbacks := some [(0, [Action.addCallback [Action.nop]])],
                     cbSeq := 1 } 0 0 []).1.callbacks.getD [],
      1 ≤ q.1 ∧
      LogEntry.cb q.1 ∉
        (iterate { running := true,
                   callbacks := some [(0, [Action.addCallback [Action.nop]])],
                   cbSeq := 1 } 0 0 []).2.1 := by
  have h := callback_snapshot_defers
    { running := true, callbacks := some [(0, [Action.addCallback [Action.nop]])],
      cbSeq := 1 } 0 0 [] [(0, [Action.addCallback [Action.nop]])] [] rfl rfl
    (by
      intro p hp
      rcases List.mem_singleton.mp hp with rfl
      exact Nat.zero_lt_one)
  exact ⟨h.1 _ (List.mem_singleton_self _), h.2⟩

theorem noLive_of_cancelled {s : LoopState} {tb : Nat}
    (h : lookupStore s.store tb = some none) : NoLive s tb := by
  intro p hp
  rw [h] at hp
  cases hp

theorem setStoreNone_lookup_self (st : Store) (tb : Nat) :
    lookupStore (setStoreNone st tb) tb = some none ∨
    lookupStore (setStoreNone st tb) tb = none := by
  induction st with
  | nil => exact Or.inr rfl
  | cons kv rest ih =>
      obtain ⟨k, v⟩ := kv
      simp only [setStoreNone]
      by_cases hk : k = tb
      · rw [if_pos hk]
        left
        simp [lookupStore, assocGet, hk]
      · rw [if_neg hk]
        simpa [lookupStore, assocGet, hk] using ih

theorem setStoreNone_lookup_other (st : Store) (tb k : Nat) (hne : k ≠ tb) :
    lookupStore (setStoreNone st tb) k = lookupStore st k := by
  induction st with
  | nil => rfl
  | cons kv rest ih =>
      obtain ⟨k', v⟩ := kv
      simp only [setStoreNone]
      by_cases hk : k' = tb
      · rw [if_pos hk]
        subst hk
        simp [lookupStore, assocGet, Ne.symm hne]
      · rw [if_neg hk]
        by_cases hk2 : k' = k
        · simp [lookupStore, assocGet, hk2]
        · simpa [lookupStore, assocGet, hk2] using ih

theorem noLive_removeTimeoutOp_self (s : LoopState) (tb : Nat) :
    NoLive (removeTimeoutOp s tb) tb := by
  intro p hp
  rcases setStoreNone_lookup_self s.store tb with h | h <;>
    · rw [show (removeTimeoutOp s tb).store = setStoreNone s.store tb from rfl] at hp
      rw [h] at hp
      cases hp

theorem noLive_preserved_removeTimeoutOp {s : LoopState} {tb : Nat}
    (h : NoLive s tb) (tb' : Nat) : NoLive (removeTimeoutOp s tb') tb := by
  by_cases he : tb = tb'
  · subst he
    exact noLive_removeTimeoutOp_self s tb
  · intro p hp
    rw [show (removeTimeoutOp s tb').store = setStoreNone s.store tb' from rfl,
        setStoreNone_lookup_other s.store tb' tb he] at hp
    exact h p hp

theorem cancelFacts_of_eqStore {tb : Nat} {s s' : LoopState}
    (hst : s'.store = s.store) : CancelFacts tb s s' [] := by
  refine ⟨?_, ?_, ?_, ?_⟩
  · intro h p hp
    rw [hst] at hp
    exact h p hp
  · intro h
    exact absurd h (List.not_mem_nil _)
  · intro _ h
    exact absurd h (List.not_mem_nil _)
  · intro l1 l2 h
    exact absurd h.symm (by simp)

theorem cancelFacts_single_other {tb : Nat} {s : LoopState} (e : LogEntry)
    (hne1 : e ≠ LogEntry.cancel tb)
    (hne2 : NoLive s tb → e ≠ LogEntry.timer tb) : CancelFacts tb s s [e] := by
  refine ⟨fun h => h, ?_, ?_, ?_⟩
  · intro hm
    exact absurd (List.mem_singleton.mp hm).symm hne1
  · intro hn hm
    exact absurd (List.mem_singleton.mp hm).symm (hne2 hn)
  · intro l1 l2 heq
    cases l1 with
    | nil =>
        injection heq with h1 h2
        exact absurd h1 hne1
    | cons x l1' =>
        injection heq with h1 h2
        exact absurd h2.symm (by simp)

theorem cancelFacts_comp {tb : Nat} {s1 s2 s3 : LoopState} {La Lb : List LogEntry}
    (h : CancelFacts tb s1 s2 La) (g : CancelFacts tb s2 s3 Lb) :
    CancelFacts tb s1 s3 (La ++ Lb) := by
  obtain ⟨h1, h2, h3, h4⟩ := h
  obtain ⟨g1, g2, g3, g4⟩ := g
  refine ⟨fun hn => g1 (h1 hn), ?_, ?_, ?_⟩
  · intro hm
    rcases List.mem_append.mp hm with hm | hm
    · exact g1 (h2 hm)
    · exact g2 hm
  · intro hn hm
    rcases List.mem_append.mp hm with hm | hm
    · exact h3 hn hm
    · exact g3 (h1 hn) hm
  · intro l1 l2 heq
    rcases List.append_eq_append_iff.mp heq with ⟨e, he1, he2⟩ | ⟨e, he1, he2⟩
    · exact g4 e l2 he2
    · cases e with
      | nil =>
          rw [List.nil_append] at he2
          exact g4 [] l2 he2.symm
      | cons x e' =>
          injection he2 with hx he'
          subst hx
          intro hm
          rcases List.mem_append.mp (he' ▸ hm) with hm2 | hm2
          · exact h4 l1 e' he1 hm2
          · have hca : LogEntry.cancel tb ∈ La := by
              rw [he1]
              exact List.mem_append_right _ (List.mem_cons_self _ _)
            exact g3 (h2 hca) hm2

theorem runAction_cancelFacts (tb : Nat) (s : LoopState) (a : Action) :
    CancelFacts tb s (runAction s a).1 (runAction s a).2 := by
  cases a with
  | addCallback body =>
      simp only [runAction]
      by_cases hc : s.closing
      · rw [if_pos hc]
        exact cancelFacts_of_eqStore rfl
      · rw [if_neg hc]
        cases s.callbacks with
        | none => exact cancelFacts_of_eqStore rfl
        | some l => exact cancelFacts_of_eqStore rfl
  | removeTimeout tb' =>
      refine ⟨fun h => noLive_preserved_removeTimeoutOp h tb', ?_, ?_, ?_⟩
      · intro hm
        have he := List.mem_singleton.mp hm
        injection he with htb
        subst htb
        exact noLive_removeTimeoutOp_self s tb
      · intro hn hm
        cases List.mem_singleton.mp hm
      · intro l1 l2 heq
        cases l1 with
        | nil =>
            injection heq with h1 h2
            rw [← h2]
            exact List.not_mem_nil _
        | cons x l1' =>
            injection heq with h1 h2
            exact absurd h2.symm (by simp)
  | stop => exact cancelFacts_of_eqStore rfl
  | nop => exact cancelFacts_of_eqStore rfl

theorem runProg_cancelFacts (tb : Nat) (s : LoopState) (p : Prog) :
    CancelFacts tb s (runProg s p).1 (runProg s p).2 := by
  induction p generalizing s with
  | nil => exact cancelFacts_of_eqStore rfl
  | cons a rest ih =>
      exact cancelFacts_comp (runAction_cancelFacts tb s a) (ih (runAction s a).1)

theorem runCallbacks_cancelFacts (tb : Nat) (s : LoopState)
    (l : List (Nat × Prog)) :
    CancelFacts tb s (runCallbacks s l).1 (runCallbacks s l).2 := by
  induction l generalizing s with
  | nil => exact cancelFacts_of_eqStore rfl
  | cons p rest ih =>
      obtain ⟨seq, body⟩ := p
      have hhead : CancelFacts tb s s [LogEntry.cb seq] :=
        cancelFacts_single_other _ (by simp) (by intro _ h; cases h)
      have := cancelFacts_comp hhead
        (cancelFacts_comp (runProg_cancelFacts tb s body) (ih (runProg s body).1))
      simpa using this

theorem runDue_cancelFacts (tb : Nat) (s : LoopState) (due : List Entry) :
    CancelFacts tb s (runDue s due).1 (runDue s due).2 := by
  induction due generalizing s with
  | nil => exact cancelFacts_of_eqStore rfl
  | cons e rest ih =>
      simp only [runDue]
      cases h : lookupStore s.store e.2 with
      | none => exact ih s
      | some ob =>
          cases ob with
          | none => exact ih s
          | some body =>
              have hhead : CancelFacts tb s s [LogEntry.timer e.2] := by
                apply cancelFacts_single_other _ (by simp)
                intro hn habs
                injection habs with he
                exact hn body (by rw [← he]; exact h)
              have := cancelFacts_comp hhead
                (cancelFacts_comp (runProg_cancelFacts tb s body)
                  (ih (runProg s body).1))
              simpa using this

theorem dispatchRev_cancelFacts (tb : Nat) (s : LoopState)
    (l : List (Nat × Nat)) :
    CancelFacts tb s (dispatchRev s l).1 (dispatchRev s l).2 := by
  induction l generalizing s with
  | nil => exact cancelFacts_of_eqStore rfl
  | cons e rest ih =>
      obtain ⟨fd, ev⟩ := e
      simp only [dispatchRev]
      cases h : assocGet s.handlers fd with
      | none => exact ih s
      | some body =>
          have hhead : CancelFacts tb s s [LogEntry.handler fd] :=
            cancelFacts_single_other _ (by simp) (by intro _ hh; cases hh)
          have := cancelFacts_comp hhead
            (cancelFacts_comp (runProg_cancelFacts tb s body)
              (ih (runProg s body).1))
          simpa using this

theorem iterCore_cancelFacts (tb : Nat) (s : LoopState)
    (cbs : List (Nat × Prog)) (heap : List Entry) (now : Rat) :
    CancelFacts tb s (iterCore s cbs heap now).1 (iterCore s cbs heap now).2 := by
  have hmid : CancelFacts tb s (midState s heap now) [] :=
    cancelFacts_of_eqStore rfl
  have h1 := runCallbacks_cancelFacts tb (midState s heap now) cbs
  have h2 := runDue_cancelFacts tb (runCallbacks (midState s heap now) cbs).1
    (dueOf s heap now)
  simpa using cancelFacts_comp hmid (cancelFacts_comp h1 h2)

theorem iterRun_cancelFacts (tb : Nat) (s : LoopState) (now : Rat) :
    CancelFacts tb s (iterRun s now).1 (iterRun s now).2 := by
  unfold iterRun
  cases hq : s.callbacks with
  | none => exact cancelFacts_of_eqStore rfl
  | some cbs =>
      cases ht : s.timeouts with
      | none => exact cancelFacts_of_eqStore rfl
      | some heap => exact iterCore_cancelFacts tb s cbs heap now

theorem iterate_cancelFacts (tb : Nat) (s : LoopState) (now now2 : Rat)
    (evs : List (Nat × Nat)) :
    CancelFacts tb s (iterate s now now2 evs).1 (iterate s now now2 evs).2.1 := by
  simp only [iterate]
  by_cases hr : (iterRun s now).1.running = false
  · rw [if_pos hr]
    exact iterRun_cancelFacts tb s now
  · rw [if_neg hr]
    have h1 := iterRun_cancelFacts tb s now
    have hmid : CancelFacts tb (iterRun s now).1
        ({ (iterRun s now).1 with events := [] }) [] :=
      cancelFacts_of_eqStore rfl
    have h2 := dispatchRev_cancelFacts tb { (iterRun s now).1 with events := [] }
      (mergeEvents (iterRun s now).1.events evs).reverse
    simpa using cancelFacts_comp h1 (cancelFacts_comp hmid h2)

theorem runLoop_cancelFacts (tb : Nat) (s : LoopState) (envs : List EnvStep) :
    CancelFacts tb s (runLoop s envs).1 (runLoop s envs).2 := by
  induction envs generalizing s with
  | nil => exact cancelFacts_of_eqStore rfl
  | cons e rest ih =>
      simp only [runLoop]
      cases hpt : (iterate s e.now e.now2 e.poll).2.2 with
      | none => exact iterate_cancelFacts tb s e.now e.now2 e.poll
      | some pt =>
          exact cancelFacts_comp (iterate_cancelFacts tb s e.now e.now2 e.poll)
            (ih (iterate s e.now e.now2 e.poll).1)

/-- C3: a timer whose callback was cleared by `remove_timeout` before the
loop ran it is never invoked.  First conjunct: a timer already cancelled
when the run starts is never invoked in any subsequent iteration.  Second
conjunct: within the full run log, no invocation of a timer follows a
cancellation of that timer, so a cancellation from inside another callback or
another due timer of the same iteration (with the same or an earlier
deadline) is honored.  The log of `runLoop` includes the final batch of
snapshotted callbacks and due timers that the source still runs after
`stop()`, before the mid-iteration break exits the while-loop. -/
theorem cancelled_timer_never_fires (s : LoopState) (envs : List EnvStep)
    (tb : Nat) :
    (lookupStore s.store tb = some none →
      LogEntry.timer tb ∉ (runLoop s envs).2) ∧
    ∀ l1 l2, (runLoop s envs).2 = l1 ++ LogEntry.cancel tb :: l2 →
      LogEntry.timer tb ∉ l2 := by
  obtain ⟨-, -, h3, h4⟩ := runLoop_cancelFacts tb s envs
  exact ⟨fun h => h3 (noLive_of_cancelled h), h4⟩

theorem cancelled_timer_never_fires_witness :
    (lookupStore ([(0, none)] : Store) 0 = some none ∧
     LogEntry.timer 0 ∉
       (runLoop { running := true, timeouts := some [((0:Rat), 0)],
                  store := [(0, none)], cancellations := 1, timeoutCounter := 1 }
         [⟨0, 0, []⟩]).2) ∧
    ((runLoop { running := true,
                timeouts := some [((0:Rat), 0), ((0:Rat), 1), ((0:Rat), 2)],
                store := [(0, some [Action.removeTimeout 2]), (1, some []),
                  (2, some [])],
                timeoutCounter := 3 } [⟨0, 0, []⟩]).2
       = [LogEntry.timer 0] ++ LogEntry.cancel 2 :: [LogEntry.timer 1] ∧
     LogEntry.timer 2 ∉ [LogEntry.timer 1]) ∧
    ((runLoop { running := true,
                handlers := [(1, [Action.stop,
                  Action.addCallback [Action.removeTimeout 0]])],
                timeouts := some [((1:Rat), 0), ((1:Rat), 1)],
                store := [(0, some [Action.nop]), (1, some [Action.nop])],
                timeoutCounter := 2 } [⟨0, 0, [(1, 1)]⟩, ⟨2, 2, []⟩]).2
       = [LogEntry.handler 1, LogEntry.cb 0] ++
         LogEntry.cancel 0 :: [LogEntry.timer 1] ∧
     LogEntry.timer 0 ∉ [LogEntry.timer 1]) :=
  ⟨⟨rfl,
    (cancelled_timer_never_fires
      { running := true, timeouts := some [((0:Rat), 0)], store := [(0, none)],
        cancellations := 1, timeoutCounter := 1 } [⟨0, 0, []⟩] 0).1 rfl⟩,
   ⟨rfl,
    (cancelled_timer_never_fires
      { running := true,
        timeouts := some [((0:Rat), 0), ((0:Rat), 1), ((0:Rat), 2)],
        store := [(0, some [Action.removeTimeout 2]), (1, some []),
          (2, some [])],
        timeoutCounter := 3 } [⟨0, 0, []⟩] 2).2
      [LogEntry.timer 0] [LogEntry.timer 1] rfl⟩,
   ⟨rfl,
    (cancelled_timer_never_fires
      { running := true,
        handlers := [(1, [Action.stop,
          Action.addCallback [Action.removeTimeout 0]])],
        timeouts := some [((1:Rat), 0), ((1:Rat), 1)],
        store := [(0, some [Action.nop]), (1, some [Action.nop])],
        timeoutCounter := 2 } [⟨0, 0, [(1, 1)]⟩, ⟨2, 2, []⟩] 0).2
      [LogEntry.handler 1, LogEntry.cb 0] [LogEntry.timer 1] rfl⟩⟩

theorem collectDue_due_sublist (store : Store) (cancels : Int) (now : Rat)
    (heap : List Entry) :
    (collectDue store cancels now heap).2.1.Sublist heap := by
  induction heap generalizing cancels with
  | nil => simp [collectDue]
  | cons e rest ih =>
      simp only [collectDue]
      split
      · exact (ih (cancels - 1)).cons e
      · split
        · exact (ih cancels).cons₂ e
        · exact List.nil_sublist _

theorem dueOf_sublist (s : LoopState) (heap : List Entry) (now : Rat) :
    (dueOf s heap now).Sublist heap := by
  unfold dueOf collectAndGc
  split
  · exact List.nil_sublist _
  · exact collectDue_due_sublist s.store s.cancellations now heap

theorem timersOf_append (L1 L2 : List LogEntry) :
    timersOf (L1 ++ L2) = timersOf L1 ++ timersOf L2 :=
  List.filterMap_append L1 L2 _

theorem timersOf_cons_timer (t : Nat) (L : List LogEntry) :
    timersOf (LogEntry.timer t :: L) = t :: timersOf L := rfl

theorem timersOf_eq_nil {L : List LogEntry}
    (h : ∀ e ∈ L, (∀ t, e ≠ LogEntry.timer t)) : timersOf L = [] := by
  unfold timersOf
  rw [List.filterMap_eq_nil_iff]
  intro e he
  cases e with
  | timer t => exact absurd rfl (h _ he t)
  | cb t => rfl
  | handler t => rfl
  | cancel t => rfl

theorem timersOf_runProg (s : LoopState) (p : Prog) :
    timersOf (runProg s p).2 = [] := by
  apply timersOf_eq_nil
  intro e he t
  obtain ⟨tb, rfl⟩ := runProg_log_cancel s p e he
  simp

theorem timersOf_runCallbacks (s : LoopState) (l : List (Nat × Prog)) :
    timersOf (runCallbacks s l).2 = [] := by
  apply timersOf_eq_nil
  intro e he t
  rcases runCallbacks_log_classify s l e he with ⟨sq, rfl, -⟩ | ⟨tb, rfl⟩ <;> simp

theorem timersOf_dispatchRev (s : LoopState) (l : List (Nat × Nat)) :
    timersOf (dispatchRev s l).2 = [] := by
  apply timersOf_eq_nil
  intro e he t
  rcases dispatchRev_log_classify s l e he with ⟨fd, rfl⟩ | ⟨tb, rfl⟩ <;> simp

theorem timersOf_runDue_sublist (s : LoopState) (due : List Entry) :
    (timersOf (runDue s due).2).Sublist (due.map Prod.snd) := by
  induction due generalizing s with
  | nil => simp [runDue, timersOf]
  | cons e rest ih =>
      simp only [runDue]
      cases h : lookupStore s.store e.2 with
      | none => exact (ih s).cons e.2
      | some ob =>
          cases ob with
          | none => exact (ih s).cons e.2
          | some body =>
              show (timersOf (LogEntry.timer e.2 ::
                ((runProg s body).2 ++ (runDue (runProg s body).1 rest).2))).Sublist
                ((e :: rest).map Prod.snd)
              rw [timersOf_cons_timer, timersOf_append, timersOf_runProg,
                List.nil_append, List.map_cons]
              exact (ih (runProg s body).1).cons₂ e.2

theorem iterCore_timers_sublist (s : LoopState) (cbs : List (Nat × Prog))
    (heap : List Entry) (now : Rat) :
    (timersOf (iterCore s cbs heap now).2).Sublist (heap.map Prod.snd) := by
  show (timersOf ((runCallbacks (midState s heap now) cbs).2 ++
    (runDue (runCallbacks (midState s heap now) cbs).1 (dueOf s heap now)).2)).Sublist
    (heap.map Prod.snd)
  rw [timersOf_append, timersOf_runCallbacks, List.nil_append]
  exact (timersOf_runDue_sublist _ _).trans
    ((dueOf_sublist s heap now).map Prod.snd)

theorem iterate_timers_sublist (s : LoopState) (now now2 : Rat)
    (evs : List (Nat × Nat)) (cbs : List (Nat × Prog)) (heap : List Entry)
    (hq : s.callbacks = some cbs) (ht : s.timeouts = some heap) :
    (timersOf (iterate s now now2 evs).2.1).Sublist (heap.map Prod.snd) := by
  have hrun := iterRun_eq_core s now cbs heap hq ht
  simp only [iterate, hrun]
  by_cases hr : (iterCore s cbs heap now).1.running = false
  · rw [if_pos hr]
    exact iterCore_timers_sublist s cbs heap now
  · rw [if_neg hr]
    show (timersOf ((iterCore s cbs heap now).2 ++
      (dispatchRev { (iterCore s cbs heap now).1 with events := [] }
        (mergeEvents (iterCore s cbs heap now).1.events evs).reverse).2)).Sublist
      (heap.map Prod.snd)
    rw [timersOf_append, timersOf_dispatchRev, List.append_nil]
    exact iterCore_timers_sublist s cbs heap now

theorem pairwise_before {α : Type} {R : α → α → Prop} {l : List α} {a b : α}
    (hp : l.Pairwise R) (ha : a ∈ l) (hb : b ∈ l) (hnr : ¬ R b a)
    (hne : a ≠ b) : ∃ l1 l2, l = l1 ++ a :: l2 ∧ b ∈ l2 := by
  induction l with
  | nil => cases ha
  | cons x rest ih =>
      rcases List.mem_cons.mp ha with rfl | ha'
      · rcases List.mem_cons.mp hb with heq | hb'
        · exact absurd heq.symm hne
        · exact ⟨[], rest, rfl, hb'⟩
      · rcases List.mem_cons.mp hb with rfl | hb'
        · exact absurd ((List.pairwise_cons.mp hp).1 a ha') hnr
        · obtain ⟨l1, l2, heq, hbm⟩ := ih (List.pairwise_cons.mp hp).2 ha' hb'
          exact ⟨x :: l1, l2, by rw [heq]; rfl, hbm⟩

theorem sublist_before {α : Type} {a b : α} :
    ∀ {xs : List α} (y1 y2 : List α),
      xs.Sublist (y1 ++ a :: y2) → (y1 ++ a :: y2).Nodup → a ∈ xs → b ∈ xs →
      b ∈ y2 → ∃ x1 x2, xs = x1 ++ a :: x2 ∧ b ∈ x2 := by
  intro xs y1
  induction y1 generalizing xs with
  | nil =>
      intro y2 hs hnd ha hb hbm
      rw [List.nil_append] at hs hnd
      cases hs with
      | cons _ hs' =>
          exact absurd (hs'.subset ha) (List.nodup_cons.mp hnd).1
      | cons₂ _ hs' =>
          rename_i xs'
          rcases List.mem_cons.mp hb with rfl | hb'
          · exact absurd hbm (List.nodup_cons.mp hnd).1
          · exact ⟨[], xs', rfl, hb'⟩
  | cons c y1' ih =>
      intro y2 hs hnd ha hb hbm
      rw [List.cons_append] at hs hnd
      have hnd' := (List.nodup_cons.mp hnd).2
      have hcn := (List.nodup_cons.mp hnd).1
      cases hs with
      | cons _ hs' => exact ih y2 hs' hnd' ha hb hbm
      | cons₂ _ hs' =>
          rename_i xs'
          have hac : a ≠ c := by
            rintro rfl
            exact hcn (List.mem_append_right _ (List.mem_cons_self _ _))
          have hbc : b ≠ c := by
            rintro rfl
            exact hcn (List.mem_append_right _ (List.mem_cons_of_mem _ hbm))
          have ha' : a ∈ xs' := by
            rcases List.mem_cons.mp ha with heq | h
            · exact absurd heq hac
            · exact h
          have hb' : b ∈ xs' := by
            rcases List.mem_cons.mp hb with heq | h
            · exact absurd heq hbc
            · exact h
          obtain ⟨x1, x2, heq, hbm2⟩ := ih y2 hs' hnd' ha' hb' hbm
          exact ⟨c :: x1, x2, by rw [heq]; rfl, hbm2⟩

theorem filterMap_split {α β : Type} (f : α → Option β) :
    ∀ (L : List α) (x1 x2 : List β), L.filterMap f = x1 ++ x2 →
      ∃ l1 l2, L = l1 ++ l2 ∧ l1.filterMap f = x1 ∧ l2.filterMap f = x2 := by
  intro L
  induction L with
  | nil =>
      intro x1 x2 h
      rw [List.filterMap_nil] at h
      obtain ⟨rfl, rfl⟩ := List.append_eq_nil.mp h.symm
      exact ⟨[], [], rfl, rfl, rfl⟩
  | cons e L' ih =>
      intro x1 x2 h
      rw [List.filterMap_cons] at h
      cases hf : f e with
      | none =>
          rw [hf] at h
          obtain ⟨l1, l2, rfl, h1, h2⟩ := ih x1 x2 h
          exact ⟨e :: l1, l2, rfl, by rw [List.filterMap_cons, hf]; exact h1, h2⟩
      | some v =>
          rw [hf] at h
          cases x1 with
          | nil =>
              refine ⟨[], e :: L', rfl, rfl, ?_⟩
              rw [List.filterMap_cons, hf]
              simpa using h
          | cons w x1' =>
              injection h with hw hrest
              obtain ⟨l1, l2, rfl, h1, h2⟩ := ih x1' x2 hrest
              refine ⟨e :: l1, l2, rfl, ?_, h2⟩
              rw [List.filterMap_cons, hf, h1, hw]

theorem mem_timersOf_of_timer {L : List LogEntry} {t : Nat}
    (h : LogEntry.timer t ∈ L) : t ∈ timersOf L := by
  unfold timersOf
  exact List.mem_filterMap.mpr ⟨LogEntry.timer t, h, rfl⟩

theorem timer_mem_of_mem_timersOf {l : List LogEntry} {t : Nat}
    (h : t ∈ timersOf l) : LogEntry.timer t ∈ l := by
  unfold timersOf at h
  obtain ⟨e, hel, hfe⟩ := List.mem_filterMap.mp h
  cases e with
  | timer u =>
      injection hfe with hu
      subst hu
      exact hel
  | cb u => cases hfe
  | handler u => cases hfe
  | cancel u => cases hfe

/-- C2: due timers fire in lexicographic `(deadline, tiebreaker)` order.  For
any two pending timers `(da, ta)` and `(db, tb)` in the (sorted,
distinct-tiebreaker) heap, if `(da, ta)` precedes `(db, tb)` lexicographically
and both are invoked during an iteration, then the run log splits so that
A's invocation lies strictly before every invocation of B. -/
theorem due_timers_fire_in_order (s : LoopState) (now now2 : Rat)
    (evs : List (Nat × Nat)) (cbs : List (Nat × Prog)) (heap : List Entry)
    (hq : s.callbacks = some cbs) (ht : s.timeouts = some heap)
    (hsort : heap.Pairwise leKey) (hnd : (heap.map Prod.snd).Nodup)
    (da db : Rat) (ta tb : Nat) (hA : (da, ta) ∈ heap) (hB : (db, tb) ∈ heap)
    (hlt : da < db ∨ (da = db ∧ ta < tb))
    (hfa : LogEntry.timer ta ∈ (iterate s now now2 evs).2.1)
    (hfb : LogEntry.timer tb ∈ (iterate s now now2 evs).2.1) :
    ∃ l1 l2, (iterate s now now2 evs).2.1 = l1 ++ l2 ∧
      LogEntry.timer ta ∈ l1 ∧ LogEntry.timer tb ∈ l2 ∧
      LogEntry.timer tb ∉ l1 := by
  have hsub := iterate_timers_sublist s now now2 evs cbs heap hq ht
  have hndL : (timersOf (iterate s now now2 evs).2.1).Nodup := hsub.nodup hnd
  have hta := mem_timersOf_of_timer hfa
  have htb := mem_timersOf_of_timer hfb
  have hne : ta ≠ tb := by
    rintro rfl
    have heqp := List.inj_on_of_nodup_map hnd hA hB rfl
    rcases hlt with h | ⟨-, h⟩
    · injection heqp with hda hta2
      rw [hda] at h
      exact lt_irrefl _ h
    · exact lt_irrefl _ h
  have hR : ¬ leKey (db, tb) (da, ta) := by
    intro h
    rcases (Iff.rfl : leKey (db, tb) (da, ta) ↔
      (db < da ∨ (db = da ∧ tb ≤ ta))).mp h with h' | ⟨h1, h2⟩
    · rcases hlt with h'' | ⟨h1'', -⟩
      · exact lt_asymm h' h''
      · rw [h1''] at h'
        exact lt_irrefl _ h'
    · have h1' : db = da := h1
      have h2' : tb ≤ ta := h2
      rcases hlt with h'' | ⟨-, h2''⟩
      · rw [h1'] at h''
        exact lt_irrefl _ h''
      · exact absurd h2'' (not_lt.mpr h2')
  have hAB : (da, ta) ≠ (db, tb) := by
    intro h
    injection h with h1 h2
    exact hne h2
  obtain ⟨h1, h2, heq, hbm⟩ := pairwise_before hsort hA hB hR hAB
  have hmap : heap.map Prod.snd = h1.map Prod.snd ++ ta :: h2.map Prod.snd := by
    rw [heq]
    simp
  have hbm2 : tb ∈ h2.map Prod.snd := by
    have : Prod.snd (db, tb) ∈ h2.map Prod.snd := List.mem_map_of_mem _ hbm
    simpa using this
  rw [hmap] at hsub hnd
  obtain ⟨x1, x2, hxeq, hbx⟩ :=
    sublist_before (h1.map Prod.snd) (h2.map Prod.snd) hsub hnd hta htb hbm2
  obtain ⟨l1, l2, hleq, hl1, hl2⟩ := filterMap_split _ (iterate s now now2 evs).2.1
    (x1 ++ [ta]) x2 (by
      show timersOf (iterate s now now2 evs).2.1 = (x1 ++ [ta]) ++ x2
      rw [hxeq]
      simp)
  have hndx : ((x1 ++ [ta]) ++ x2).Nodup := by
    have : timersOf (iterate s now now2 evs).2.1 = (x1 ++ [ta]) ++ x2 := by
      rw [hxeq]
      simp
    rw [this] at hndL
    exact hndL
  refine ⟨l1, l2, hleq, ?_, ?_, ?_⟩
  · apply timer_mem_of_mem_timersOf
    show ta ∈ l1.filterMap _
    rw [hl1]
    simp
  · apply timer_mem_of_mem_timersOf
    show tb ∈ l2.filterMap _
    rw [hl2]
    exact hbx
  · intro habs
    have : tb ∈ x1 ++ [ta] := by
      have h' := mem_timersOf_of_timer habs
      unfold timersOf at h'
      rw [hl1] at h'
      exact h'
    exact List.disjoint_of_nodup_append hndx this hbx

theorem due_timers_fire_in_order_witness :
    ∃ l1 l2,
      (iterate { running := true, timeouts := some [((0:Rat), 0), ((0:Rat), 1)],
                 store := [(0, some ([] : Prog)), (1, some ([] : Prog))],
                 timeoutCounter := 2 } 0 0 []).2.1 = l1 ++ l2 ∧
      LogEntry.timer 0 ∈ l1 ∧ LogEntry.timer 1 ∈ l2 ∧
      LogEntry.timer 1 ∉ l1 :=
  due_timers_fire_in_order
    { running := true, timeouts := some [((0:Rat), 0), ((0:Rat), 1)],
      store := [(0, some ([] : Prog)), (1, some ([] : Prog))],
      timeoutCounter := 2 } 0 0 [] [] [((0:Rat), 0), ((0:Rat), 1)] rfl rfl
    (by
      constructor
      · intro e he
        rcases List.mem_singleton.mp he with rfl
        exact Or.inr ⟨rfl, Nat.zero_le 1⟩
      · exact List.pairwise_singleton _ _)
    (by simp)
    0 0 0 1 (List.mem_cons_self _ _)
    (List.mem_cons_of_mem _ (List.mem_singleton_self _))
    (Or.inr ⟨rfl, Nat.zero_lt_one⟩)
    (List.mem_cons_self _ _)
    (List.mem_cons_of_mem _ (List.mem_singleton_self _))

theorem assocGet_set_self {β : Type} (l : List (Nat × β)) (k : Nat) (v : β) :
    assocGet (assocSet l k v) k = some v := by
  induction l with
  | nil => simp [assocSet, assocGet]
  | cons kv rest ih =>
      obtain ⟨k', v'⟩ := kv
      simp only [assocSet]
      by_cases h : k' = k
      · rw [if_pos h]
        simp [assocGet]
      · rw [if_neg h]
        simpa [assocGet, h] using ih

theorem assocGet_set_other {β : Type} (l : List (Nat × β)) (k : Nat) (v : β)
    (k' : Nat) (h : k' ≠ k) :
    assocGet (assocSet l k v) k' = assocGet l k' := by
  induction l with
  | nil => simp [assocSet, assocGet, Ne.symm h]
  | cons kv rest ih =>
      obtain ⟨k0, v0⟩ := kv
      simp only [assocSet]
      by_cases h0 : k0 = k
      · rw [if_pos h0]
        subst h0
        simp [assocGet, Ne.symm h]
      · rw [if_neg h0]
        by_cases h1 : k0 = k'
        · simp [assocGet, h1]
        · simpa [assocGet, h1] using ih

theorem isCancelled_set_some {st : Store} {tb : Nat} {cb : Prog} {k : Nat}
    (h : isCancelled (assocSet st tb (some cb)) k = true) :
    isCancelled st k = true := by
  by_cases hk : k = tb
  · subst hk
    unfold isCancelled lookupStore at h
    rw [assocGet_set_self] at h
    cases h
  · unfold isCancelled lookupStore at h ⊢
    rw [assocGet_set_other st tb (some cb) k hk] at h
    exact h

theorem isCancelled_setStoreNone_other {st : Store} {tb k : Nat} (h : k ≠ tb) :
    isCancelled (setStoreNone st tb) k = isCancelled st k := by
  unfold isCancelled
  rw [setStoreNone_lookup_other st tb k h]

theorem tcount_eq_countP (store : Store) (heap : List Entry) :
    tcount store heap = heap.countP fun e => isCancelled store e.2 := by
  unfold tcount
  rw [List.countP_eq_length_filter]

theorem tcount_cons (store : Store) (e : Entry) (heap : List Entry) :
    tcount store (e :: heap) =
      (if isCancelled store e.2 then 1 else 0) + tcount store heap := by
  simp only [tcount, List.filter_cons]
  split
  · simp [Nat.add_comm]
  · simp

theorem tcount_set_some_le (store : Store) (tb : Nat) (cb : Prog)
    (heap : List Entry) :
    tcount (assocSet store tb (some cb)) heap ≤ tcount store heap := by
  rw [tcount_eq_countP, tcount_eq_countP]
  apply List.countP_mono_left
  intro e _ h
  exact isCancelled_set_some h

theorem tcount_eq_of_not_mem (store : Store) (tb : Nat) (heap : List Entry)
    (h : ∀ e ∈ heap, e.2 ≠ tb) :
    tcount (setStoreNone store tb) heap = tcount store heap := by
  induction heap with
  | nil => rfl
  | cons e rest ih =>
      rw [tcount_cons, tcount_cons,
        isCancelled_setStoreNone_other (h e (List.mem_cons_self _ _)),
        ih fun x hx => h x (List.mem_cons_of_mem _ hx)]

theorem tcount_setStoreNone_le (store : Store) (tb : Nat) (heap : List Entry)
    (hnd : (heap.map Prod.snd).Nodup) :
    tcount (setStoreNone store tb) heap ≤ tcount store heap + 1 := by
  induction heap with
  | nil => simp [tcount]
  | cons e rest ih =>
      rw [tcount_cons, tcount_cons]
      have hnd' := (List.nodup_cons.mp hnd).2
      by_cases he : e.2 = tb
      · have hrest : ∀ x ∈ rest, x.2 ≠ tb := by
          intro x hx habs
          exact (List.nodup_cons.mp hnd).1
            (he ▸ habs ▸ List.mem_map_of_mem Prod.snd hx)
        rw [tcount_eq_of_not_mem store tb rest hrest]
        have : (if isCancelled (setStoreNone store tb) e.2 then 1 else 0) ≤ 1 := by
          split <;> omega
        have h2 : (if isCancelled store e.2 then 1 else 0) ≥ 0 := by omega
        omega
      · rw [isCancelled_setStoreNone_other he]
        have := ih hnd'
        omega

theorem collectDue_rem_sublist (store : Store) (cancels : Int) (now : Rat)
    (heap : List Entry) :
    (collectDue store cancels now heap).2.2.Sublist heap := by
  induction heap generalizing cancels with
  | nil => simp [collectDue]
  | cons e rest ih =>
      simp only [collectDue]
      split
      · exact (ih (cancels - 1)).cons e
      · split
        · exact (ih cancels).cons e
        · exact List.Sublist.refl _

theorem collectDue_tcount (store : Store) (now : Rat) :
    ∀ (heap : List Entry) (cancels : Int),
      (tcount store heap : Int) ≤ cancels →
      (tcount store (collectDue store cancels now heap).2.2 : Int) ≤
        (collectDue store cancels now heap).1 := by
  intro heap
  induction heap with
  | nil =>
      intro cancels h
      simpa [collectDue, tcount] using h
  | cons e rest ih =>
      intro cancels h
      rw [tcount_cons] at h
      simp only [collectDue]
      split
      · rename_i hcan
        apply ih (cancels - 1)
        rw [if_pos hcan] at h
        push_cast at h ⊢
        omega
      · rename_i hcan
        rw [if_neg hcan] at h
        split
        · apply ih cancels
          push_cast at h ⊢
          omega
        · rw [tcount_cons, if_neg hcan]
          push_cast at h ⊢
          omega

theorem gcCheck_tcount (store : Store) (c : Int) (heap : List Entry)
    (h : (tcount store heap : Int) ≤ c) :
    (tcount store (gcCheck store c heap).2 : Int) ≤ (gcCheck store c heap).1 := by
  unfold gcCheck
  split
  · have hz : tcount store
        (heapify (heap.filter fun e => ! isCancelled store e.2)) = 0 := by
      rw [tcount_eq_countP, (heapify_perm _).countP_eq]
      rw [List.countP_eq_zero]
      intro e he
      have := List.of_mem_filter he
      simpa using this
    simp [hz]
  · exact h

theorem gcCheck_snd_sublist (store : Store) (c : Int) (heap : List Entry) :
    ∀ e ∈ (gcCheck store c heap).2, e ∈ heap := by
  unfold gcCheck
  split
  · intro e he
    have := (heapify_perm _).mem_iff.mp he
    exact List.mem_of_mem_filter this
  · intro e he
    exact he

theorem gcCheck_map_nodup (store : Store) (c : Int) (heap : List Entry)
    (hnd : (heap.map Prod.snd).Nodup) :
    ((gcCheck store c heap).2.map Prod.snd).Nodup := by
  unfold gcCheck
  split
  · have hp : List.Perm
        ((heapify (heap.filter fun e => ! isCancelled store e.2)).map Prod.snd)
        ((heap.filter fun e => ! isCancelled store e.2).map Prod.snd) :=
      (heapify_perm _).map Prod.snd
    apply hp.nodup_iff.mpr
    exact ((List.filter_sublist _).map Prod.snd).nodup hnd
  · exact hnd

theorem sortedInsert_perm (x : Entry) (l : List Entry) :
    List.Perm (sortedInsert x l) (x :: l) :=
  List.perm_orderedInsert leKey x l

theorem heapInvariant_of_eq {s s' : LoopState}
    (hst : s'.store = s.store) (hc : s'.cancellations = s.cancellations)
    (ht : s'.timeouts = s.timeouts) (hn : s'.timeoutCounter = s.timeoutCounter)
    (h : HeapInvariant s) : HeapInvariant s' := by
  unfold HeapInvariant tombstoneCount at h ⊢
  rw [hst, hc, ht, hn]
  exact h

theorem callAt_heapInvariant (s : LoopState) (d : Rat) (cb : Prog)
    (h : HeapInvariant s) : HeapInvariant (callAt s d cb).1 := by
  obtain ⟨h1, h2, h3⟩ := h
  cases ht : s.timeouts with
  | none =>
      have hc0 : (0 : Int) ≤ s.cancellations :=
        le_trans (Int.ofNat_nonneg _) h1
      have htt : (callAt s d cb).1.timeouts = none := by
        show s.timeouts.map _ = none
        rw [ht]
        rfl
      refine ⟨?_, ?_, ?_⟩
      · rw [tombstoneCount, htt]
        simpa [tcount] using hc0
      · intro e he
        rw [htt] at he
        exact absurd he (List.not_mem_nil _)
      · rw [htt]
        exact List.nodup_nil
  | some heap =>
      unfold tombstoneCount at h1
      rw [ht] at h1 h2 h3
      simp only [Option.getD_some] at h1 h2 h3
      have htt : (callAt s d cb).1.timeouts =
          some (sortedInsert (d, s.timeoutCounter) heap) := by
        show s.timeouts.map _ = _
        rw [ht]
        rfl
      have hperm := sortedInsert_perm (d, s.timeoutCounter) heap
      refine ⟨?_, ?_, ?_⟩
      · rw [tombstoneCount, htt]
        simp only [Option.getD_some]
        show (tcount (assocSet s.store s.timeoutCounter (some cb))
          (sortedInsert (d, s.timeoutCounter) heap) : Int) ≤ s.cancellations
        rw [tcount_eq_countP, hperm.countP_eq, ← tcount_eq_countP, tcount_cons]
        have hhead : isCancelled (assocSet s.store s.timeoutCounter (some cb))
            (d, s.timeoutCounter).2 = false := by
          unfold isCancelled lookupStore
          rw [assocGet_set_self]
        rw [hhead]
        have hle := tcount_set_some_le s.store s.timeoutCounter cb heap
        simp only [Bool.false_eq_true, if_false, Nat.zero_add]
        omega
      · intro e he
        rw [htt] at he
        simp only [Option.getD_some] at he
        have hm := hperm.mem_iff.mp he
        show e.2 < s.timeoutCounter + 1
        rcases List.mem_cons.mp hm with rfl | hm'
        · exact Nat.lt_succ_self _
        · exact Nat.lt_succ_of_lt (h2 e hm')
      · rw [htt]
        simp only [Option.getD_some]
        have hpm : List.Perm
            ((sortedInsert (d, s.timeoutCounter) heap).map Prod.snd)
            (s.timeoutCounter :: heap.map Prod.snd) := hperm.map Prod.snd
        apply hpm.nodup_iff.mpr
        apply List.nodup_cons.mpr
        refine ⟨?_, h3⟩
        intro hmem
        obtain ⟨e, he, hsnd⟩ := List.mem_map.mp hmem
        exact absurd (hsnd ▸ h2 e he) (lt_irrefl _)

theorem removeTimeoutOp_heapInvariant (s : LoopState) (tb : Nat)
    (h : HeapInvariant s) : HeapInvariant (removeTimeoutOp s tb) := by
  obtain ⟨h1, h2, h3⟩ := h
  unfold tombstoneCount at h1
  refine ⟨?_, h2, h3⟩
  show (tcount (setStoreNone s.store tb) (s.timeouts.getD []) : Int) ≤
    s.cancellations + 1
  have hle := tcount_setStoreNone_le s.store tb (s.timeouts.getD []) h3
  omega

theorem collectAndGc_facts (store : Store) (cancels : Int) (now : Rat)
    (heap : List Entry) (h1 : (tcount store heap : Int) ≤ cancels)
    (hnd : (heap.map Prod.snd).Nodup) :
    (tcount store (collectAndGc store cancels now heap).2.2 : Int) ≤
      (collectAndGc store cancels now heap).1 ∧
    (∀ e ∈ (collectAndGc store cancels now heap).2.2, e ∈ heap) ∧
    ((collectAndGc store cancels now heap).2.2.map Prod.snd).Nodup := by
  unfold collectAndGc
  split
  · exact ⟨h1, fun e he => he, hnd⟩
  · refine ⟨?_, ?_, ?_⟩
    · exact gcCheck_tcount _ _ _ (collectDue_tcount store now heap cancels h1)
    · intro e he
      exact (collectDue_rem_sublist store cancels now heap).subset
        (gcCheck_snd_sublist _ _ _ e he)
    · exact gcCheck_map_nodup _ _ _
        (((collectDue_rem_sublist store cancels now heap).map Prod.snd).nodup hnd)

theorem midState_heapInvariant (s : LoopState) (heap : List Entry) (now : Rat)
    (ht : s.timeouts = some heap) (h : HeapInvariant s) :
    HeapInvariant (midState s heap now) := by
  obtain ⟨h1, h2, h3⟩ := h
  unfold tombstoneCount at h1
  rw [ht] at h1 h2 h3
  simp only [Option.getD_some] at h1 h2 h3
  obtain ⟨g1, g2, g3⟩ :=
    collectAndGc_facts s.store s.cancellations now heap h1 h3
  refine ⟨g1, ?_, g3⟩
  intro e he
  exact h2 e (g2 e he)

theorem runAction_heapInvariant (s : LoopState) (a : Action)
    (h : HeapInvariant s) : HeapInvariant (runAction s a).1 := by
  cases a with
  | addCallback body =>
      simp only [runAction]
      split
      · exact h
      · split
        · exact h
        · exact heapInvariant_of_eq rfl rfl rfl rfl h
  | removeTimeout tb => exact removeTimeoutOp_heapInvariant s tb h
  | stop => exact heapInvariant_of_eq rfl rfl rfl rfl h
  | nop => exact h

theorem runProg_heapInvariant (s : LoopState) (p : Prog)
    (h : HeapInvariant s) : HeapInvariant (runProg s p).1 := by
  induction p generalizing s with
  | nil => exact h
  | cons a rest ih => exact ih _ (runAction_heapInvariant s a h)

theorem runCallbacks_heapInvariant (s : LoopState) (l : List (Nat × Prog))
    (h : HeapInvariant s) : HeapInvariant (runCallbacks s l).1 := by
  induction l generalizing s with
  | nil => exact h
  | cons p rest ih =>
      obtain ⟨seq, body⟩ := p
      exact ih _ (runProg_heapInvariant s body h)

theorem runDue_heapInvariant (s : LoopState) (due : List Entry)
    (h : HeapInvariant s) : HeapInvariant (runDue s due).1 := by
  induction due generalizing s with
  | nil => exact h
  | cons e rest ih =>
      simp only [runDue]
      cases hl : lookupStore s.store e.2 with
      | none => exact ih s h
      | some ob =>
          cases ob with
          | none => exact ih s h
          | some body => exact ih _ (runProg_heapInvariant s body h)

theorem dispatchRev_heapInvariant (s : LoopState) (l : List (Nat × Nat))
    (h : HeapInvariant s) : HeapInvariant (dispatchRev s l).1 := by
  induction l generalizing s with
  | nil => exact h
  | cons e rest ih =>
      obtain ⟨fd, ev⟩ := e
      simp only [dispatchRev]
      cases hl : assocGet s.handlers fd with
      | none => exact ih s h
      | some body => exact ih _ (runProg_heapInvariant s body h)

theorem iterCore_heapInvariant (s : LoopState) (cbs : List (Nat × Prog))
    (heap : List Entry) (now : Rat) (ht : s.timeouts = some heap)
    (h : HeapInvariant s) : HeapInvariant (iterCore s cbs heap now).1 :=
  runDue_heapInvariant _ _
    (runCallbacks_heapInvariant _ cbs (midState_heapInvariant s heap now ht h))

theorem iterRun_heapInvariant (s : LoopState) (now : Rat)
    (h : HeapInvariant s) : HeapInvariant (iterRun s now).1 := by
  unfold iterRun
  cases hq : s.callbacks with
  | none => exact h
  | some cbs =>
      cases ht : s.timeouts with
      | none => exact h
      | some heap => exact iterCore_heapInvariant s cbs heap now ht h

theorem iterate_heapInvariant (s : LoopState) (now now2 : Rat)
    (evs : List (Nat × Nat)) (h : HeapInvariant s) :
    HeapInvariant (iterate s now now2 evs).1 := by
  simp only [iterate]
  by_cases hr : (iterRun s now).1.running = false
  · rw [if_pos hr]
    exact iterRun_heapInvariant s now h
  · rw [if_neg hr]
    exact dispatchRev_heapInvariant _ _
      (heapInvariant_of_eq rfl rfl rfl rfl (iterRun_heapInvariant s now h))

theorem addCallback_heapInvariant {s s' : LoopState} {w : Bool} (tid : Nat)
    (cb : Prog) (heq : addCallback s tid cb = Except.ok (s', w))
    (h : HeapInvariant s) : HeapInvariant s' := by
  unfold addCallback at heq
  split at heq
  · cases heq
  · revert heq
    cases hq : s.callbacks with
    | none => intro heq; cases heq
    | some l =>
        intro heq
        injection heq with hp
        injection hp with hs hw
        subst hs
        exact heapInvariant_of_eq rfl rfl rfl rfl h

theorem addCallbackFromSignal_heapInvariant {s s' : LoopState} {w : Bool}
    (tid : Nat) (cb : Prog)
    (heq : addCallbackFromSignal s tid cb = Except.ok (s', w))
    (h : HeapInvariant s) : HeapInvariant s' := by
  unfold addCallbackFromSignal at heq
  split at heq
  · exact addCallback_heapInvariant tid cb heq h
  · revert heq
    cases hq : s.callbacks with
    | none => intro heq; cases heq
    | some l =>
        intro heq
        injection heq with hp
        injection hp with hs hw
        subst hs
        exact heapInvariant_of_eq rfl rfl rfl rfl h

theorem addHandler_heapInvariant (s : LoopState) (fd : Nat) (hh : Prog)
    (ev : Nat) (h : HeapInvariant s) :
    HeapInvariant (addHandler s fd hh ev).1 := by
  unfold addHandler
  split
  · exact heapInvariant_of_eq rfl rfl rfl rfl h
  · exact heapInvariant_of_eq rfl rfl rfl rfl h

theorem close_heapInvariant (s : LoopState) (h : HeapInvariant s) :
    HeapInvariant (close s) := by
  obtain ⟨h1, -, -⟩ := h
  have hc0 : (0 : Int) ≤ s.cancellations :=
    le_trans (Int.ofNat_nonneg _) h1
  refine ⟨?_, ?_, ?_⟩
  · rw [tombstoneCount]
    simpa [close, tcount] using hc0
  · intro e he
    exact absurd he (List.not_mem_nil _)
  · exact List.nodup_nil

theorem startOp_heapInvariant (s : LoopState) (tid : Nat)
    (h : HeapInvariant s) : HeapInvariant (startOp s tid) := by
  unfold startOp
  split
  · exact h
  · split
    · exact heapInvariant_of_eq rfl rfl rfl rfl h
    · exact heapInvariant_of_eq rfl rfl rfl rfl h

theorem reachable_heapInvariant {s : LoopState} (h : Reachable s) :
    HeapInvariant s := by
  induction h with
  | init =>
      refine ⟨?_, ?_, ?_⟩
      · rw [tombstoneCount]
        simp [initState, tcount]
      · intro e he
        exact absurd he (List.not_mem_nil _)
      · exact List.nodup_nil
  | start tid _ ih => exact startOp_heapInvariant _ tid ih
  | stop _ ih => exact heapInvariant_of_eq rfl rfl rfl rfl ih
  | callAt d cb _ ih => exact callAt_heapInvariant _ d cb ih
  | removeTimeout tb _ ih => exact removeTimeoutOp_heapInvariant _ tb ih
  | addCallback tid cb _ heq ih => exact addCallback_heapInvariant tid cb heq ih
  | addCallbackFromSignal tid cb _ heq ih =>
      exact addCallbackFromSignal_heapInvariant tid cb heq ih
  | addHandler fd hh ev _ ih => exact addHandler_heapInvariant _ fd hh ev ih
  | close _ ih => exact close_heapInvariant _ ih
  | iterate now now2 evs _ ih => exact iterate_heapInvariant _ now now2 evs ih

/-- C5 amended: in every reachable loop state the cancellation counter is an
upper bound on the number of nil-callback entries in the timer heap; exact
equality fails (see the counterexample) because cancelling a timer that has
already been popped as due increments the counter without leaving a
tombstone in the heap. -/
theorem cancellation_count_bounds_tombstones (s : LoopState)
    (h : Reachable s) : (tombstoneCount s : Int) ≤ s.cancellations :=
  (reachable_heapInvariant h).1

theorem cancellation_count_bounds_tombstones_witness :
    (tombstoneCount (iterate c5Cex 0 0 []).1 : Int) ≤
      (iterate c5Cex 0 0 []).1.cancellations :=
  cancellation_count_bounds_tombstones _
    (Reachable.iterate 0 0 []
      (Reachable.callAt 0 [Action.nop]
        (Reachable.callAt 0 [Action.removeTimeout 1]
          (Reachable.start 7 Reachable.init))))



theorem heapSorted_of_eq {s s' : LoopState} (ht : s'.timeouts = s.timeouts)
    (h : HeapSorted s) : HeapSorted s' := by
  unfold HeapSorted at h ⊢
  rw [ht]
  exact h

theorem runAction_timeouts (s : LoopState) (a : Action) :
    (runAction s a).1.timeouts = s.timeouts := by
  cases a with
  | addCallback body =>
      simp only [runAction]
      split
      · rfl
      · split <;> rfl
  | removeTimeout tb => rfl
  | stop => rfl
  | nop => rfl

theorem runProg_timeouts (s : LoopState) (p : Prog) :
    (runProg s p).1.timeouts = s.timeouts := by
  induction p generalizing s with
  | nil => rfl
  | cons a rest ih => exact (ih (runAction s a).1).trans (runAction_timeouts s a)

theorem runCallbacks_timeouts (s : LoopState) (l : List (Nat × Prog)) :
    (runCallbacks s l).1.timeouts = s.timeouts := by
  induction l generalizing s with
  | nil => rfl
  | cons p rest ih =>
      obtain ⟨seq, body⟩ := p
      exact (ih (runProg s body).1).trans (runProg_timeouts s body)

theorem runDue_timeouts (s : LoopState) (due : List Entry) :
    (runDue s due).1.timeouts = s.timeouts := by
  induction due generalizing s with
  | nil => rfl
  | cons e rest ih =>
      simp only [runDue]
      cases hl : lookupStore s.store e.2 with
      | none => exact ih s
      | some ob =>
          cases ob with
          | none => exact ih s
          | some body => exact (ih (runProg s body).1).trans (runProg_timeouts s body)

theorem dispatchRev_timeouts (s : LoopState) (l : List (Nat × Nat)) :
    (dispatchRev s l).1.timeouts = s.timeouts := by
  induction l generalizing s with
  | nil => rfl
  | cons e rest ih =>
      obtain ⟨fd, ev⟩ := e
      simp only [dispatchRev]
      cases hl : assocGet s.handlers fd with
      | none => exact ih s
      | some body => exact (ih (runProg s body).1).trans (runProg_timeouts s body)

theorem collectAndGc_sorted (store : Store) (cancels : Int) (now : Rat)
    (heap : List Entry) (h : heap.Pairwise leKey) :
    (collectAndGc store cancels now heap).2.2.Pairwise leKey := by
  unfold collectAndGc
  split
  · exact h
  · show ((gcCheck store (collectDue store cancels now heap).1
      (collectDue store cancels now heap).2.2).2).Pairwise leKey
    unfold gcCheck
    split
    · exact heapify_sorted _
    · exact h.sublist (collectDue_rem_sublist store cancels now heap)

theorem midState_heapSorted (s : LoopState) (heap : List Entry) (now : Rat)
    (ht : s.timeouts = some heap) (h : HeapSorted s) :
    HeapSorted (midState s heap now) := by
  unfold HeapSorted at h ⊢
  rw [ht] at h
  simp only [Option.getD_some] at h
  exact collectAndGc_sorted s.store s.cancellations now heap h

theorem callAt_heapSorted (s : LoopState) (d : Rat) (cb : Prog)
    (h : HeapSorted s) : HeapSorted (callAt s d cb).1 := by
  unfold HeapSorted at h ⊢
  cases ht : s.timeouts with
  | none =>
      have htt : (callAt s d cb).1.timeouts = none := by
        show s.timeouts.map _ = none
        rw [ht]
        rfl
      rw [htt]
      exact List.Pairwise.nil
  | some heap =>
      rw [ht] at h
      simp only [Option.getD_some] at h
      have htt : (callAt s d cb).1.timeouts =
          some (sortedInsert (d, s.timeoutCounter) heap) := by
        show s.timeouts.map _ = _
        rw [ht]
        rfl
      rw [htt]
      simp only [Option.getD_some]
      exact List.Sorted.orderedInsert _ _ h

theorem iterate_heapSorted (s : LoopState) (now now2 : Rat)
    (evs : List (Nat × Nat)) (h : HeapSorted s) :
    HeapSorted (iterate s now now2 evs).1 := by
  have hrun : HeapSorted (iterRun s now).1 := by
    unfold iterRun
    cases hq : s.callbacks with
    | none => exact h
    | some cbs =>
        cases ht : s.timeouts with
        | none => exact h
        | some heap =>
            have hmid := midState_heapSorted s heap now ht h
            exact heapSorted_of_eq
              ((runDue_timeouts _ _).trans (runCallbacks_timeouts _ cbs)) hmid
  simp only [iterate]
  by_cases hr : (iterRun s now).1.running = false
  · rw [if_pos hr]
    exact hrun
  · rw [if_neg hr]
    exact heapSorted_of_eq (dispatchRev_timeouts _ _) hrun

theorem addCallback_state_eq {s s' : LoopState} {w : Bool} {tid : Nat}
    {cb : Prog} (heq : addCallback s tid cb = Except.ok (s', w)) :
    ∃ l, s.callbacks = some l ∧
      s' = { s with callbacks := some (l ++ [(s.cbSeq, cb)]),
                    cbSeq := s.cbSeq + 1 } := by
  unfold addCallback at heq
  split at heq
  · cases heq
  · revert heq
    cases hq : s.callbacks with
    | none => intro heq; cases heq
    | some l =>
        intro heq
        injection heq with hp
        injection hp with hs hw
        exact ⟨l, rfl, hs.symm⟩

theorem addCallbackFromSignal_state_eq {s s' : LoopState} {w : Bool}
    {tid : Nat} {cb : Prog}
    (heq : addCallbackFromSignal s tid cb = Except.ok (s', w)) :
    ∃ l, s.callbacks = some l ∧
      s' = { s with callbacks := some (l ++ [(s.cbSeq, cb)]),
                    cbSeq := s.cbSeq + 1 } := by
  unfold addCallbackFromSignal at heq
  split at heq
  · exact addCallback_state_eq heq
  · revert heq
    cases hq : s.callbacks with
    | none => intro heq; cases heq
    | some l =>
        intro heq
        injection heq with hp
        injection hp with hs hw
        exact ⟨l, rfl, hs.symm⟩

theorem addHandler_timeouts (s : LoopState) (fd : Nat) (hh : Prog) (ev : Nat) :
    (addHandler s fd hh ev).1.timeouts = s.timeouts := by
  unfold addHandler
  split <;> rfl

/-- Every reachable loop state has a heap sorted by the lexicographic
`(deadline, tiebreaker)` key, so the sortedness hypothesis of
`due_timers_fire_in_order` holds of every state the loop can be in. -/
theorem reachable_heapSorted {s : LoopState} (h : Reachable s) :
    HeapSorted s := by
  induction h with
  | init => exact List.Pairwise.nil
  | start tid _ ih =>
      unfold startOp
      split
      · exact ih
      · split
        · exact heapSorted_of_eq rfl ih
        · exact heapSorted_of_eq rfl ih
  | stop _ ih => exact heapSorted_of_eq rfl ih
  | callAt d cb _ ih => exact callAt_heapSorted _ d cb ih
  | removeTimeout tb _ ih => exact heapSorted_of_eq rfl ih
  | addCallback tid cb _ heq ih =>
      obtain ⟨l, -, rfl⟩ := addCallback_state_eq heq
      exact heapSorted_of_eq rfl ih
  | addCallbackFromSignal tid cb _ heq ih =>
      obtain ⟨l, -, rfl⟩ := addCallbackFromSignal_state_eq heq
      exact heapSorted_of_eq rfl ih
  | addHandler fd hh ev _ ih =>
      exact heapSorted_of_eq (addHandler_timeouts _ fd hh ev) ih
  | close _ ih => exact List.Pairwise.nil
  | iterate now now2 evs _ ih => exact iterate_heapSorted _ now now2 evs ih



theorem queueSeqBound_of_eq {s s' : LoopState}
    (hc : s'.callbacks = s.callbacks) (hs : s'.cbSeq = s.cbSeq)
    (h : QueueSeqBound s) : QueueSeqBound s' := by
  unfold QueueSeqBound at h ⊢
  rw [hc, hs]
  exact h

theorem append_queueSeqBound {s : LoopState} {l : List (Nat × Prog)}
    (cb : Prog) (hq : s.callbacks = some l) (h : QueueSeqBound s) :
    QueueSeqBound { s with callbacks := some (l ++ [(s.cbSeq, cb)]),
                           cbSeq := s.cbSeq + 1 } := by
  intro p hp
  simp only [Option.getD_some] at hp
  rcases List.mem_append.mp hp with hm | hm
  · exact Nat.lt_succ_of_lt (h p (by rw [hq]; simpa using hm))
  · rcases List.mem_singleton.mp hm with rfl
    exact Nat.lt_succ_self _

theorem runAction_queueSeqBound (s : LoopState) (a : Action)
    (h : QueueSeqBound s) : QueueSeqBound (runAction s a).1 := by
  cases a with
  | addCallback body =>
      simp only [runAction]
      split
      · exact h
      · cases hq : s.callbacks with
        | none => exact h
        | some l => exact append_queueSeqBound body hq h
  | removeTimeout tb => exact h
  | stop => exact h
  | nop => exact h

theorem runProg_queueSeqBound (s : LoopState) (p : Prog)
    (h : QueueSeqBound s) : QueueSeqBound (runProg s p).1 := by
  induction p generalizing s with
  | nil => exact h
  | cons a rest ih => exact ih _ (runAction_queueSeqBound s a h)

theorem runCallbacks_queueSeqBound (s : LoopState) (l : List (Nat × Prog))
    (h : QueueSeqBound s) : QueueSeqBound (runCallbacks s l).1 := by
  induction l generalizing s with
  | nil => exact h
  | cons p rest ih =>
      obtain ⟨seq, body⟩ := p
      exact ih _ (runProg_queueSeqBound s body h)

theorem runDue_queueSeqBound (s : LoopState) (due : List Entry)
    (h : QueueSeqBound s) : QueueSeqBound (runDue s due).1 := by
  induction due generalizing s with
  | nil => exact h
  | cons e rest ih =>
      simp only [runDue]
      cases hl : lookupStore s.store e.2 with
      | none => exact ih s h
      | some ob =>
          cases ob with
          | none => exact ih s h
          | some body => exact ih _ (runProg_queueSeqBound s body h)

theorem dispatchRev_queueSeqBound (s : LoopState) (l : List (Nat × Nat))
    (h : QueueSeqBound s) : QueueSeqBound (dispatchRev s l).1 := by
  induction l generalizing s with
  | nil => exact h
  | cons e rest ih =>
      obtain ⟨fd, ev⟩ := e
      simp only [dispatchRev]
      cases hl : assocGet s.handlers fd with
      | none => exact ih s h
      | some body => exact ih _ (runProg_queueSeqBound s body h)

theorem queueSeqBound_midState (s : LoopState) (heap : List Entry)
    (now : Rat) : QueueSeqBound (midState s heap now) := by
  intro p hp
  exact absurd hp (List.not_mem_nil _)

theorem iterate_queueSeqBound (s : LoopState) (now now2 : Rat)
    (evs : List (Nat × Nat)) (h : QueueSeqBound s) :
    QueueSeqBound (iterate s now now2 evs).1 := by
  have hrun : QueueSeqBound (iterRun s now).1 := by
    unfold iterRun
    cases hq : s.callbacks with
    | none => exact h
    | some cbs =>
        cases ht : s.timeouts with
        | none => exact h
        | some heap =>
            exact runDue_queueSeqBound _ _
              (runCallbacks_queueSeqBound _ cbs (queueSeqBound_midState s heap now))
  simp only [iterate]
  by_cases hr : (iterRun s now).1.running = false
  · rw [if_pos hr]
    exact hrun
  · rw [if_neg hr]
    exact dispatchRev_queueSeqBound _ _ (queueSeqBound_of_eq rfl rfl hrun)

theorem addHandler_callbacks (s : LoopState) (fd : Nat) (hh : Prog)
    (ev : Nat) : (addHandler s fd hh ev).1.callbacks = s.callbacks := by
  unfold addHandler
  split <;> rfl

theorem addHandler_cbSeq (s : LoopState) (fd : Nat) (hh : Prog) (ev : Nat) :
    (addHandler s fd hh ev).1.cbSeq = s.cbSeq := by
  unfold addHandler
  split <;> rfl

/-- Every reachable loop state satisfies the sequence-number bound of the
callback queue, so the freshness hypothesis of `callback_snapshot_defers`
holds of every state the loop can be in. -/
theorem reachable_queueSeqBound {s : LoopState} (h : Reachable s) :
    QueueSeqBound s := by
  induction h with
  | init =>
      intro p hp
      exact absurd hp (List.not_mem_nil _)
  | start tid _ ih =>
      unfold startOp
      split
      · exact ih
      · split
        · exact queueSeqBound_of_eq rfl rfl ih
        · exact queueSeqBound_of_eq rfl rfl ih
  | stop _ ih => exact queueSeqBound_of_eq rfl rfl ih
  | callAt d cb _ ih => exact queueSeqBound_of_eq rfl rfl ih
  | removeTimeout tb _ ih => exact queueSeqBound_of_eq rfl rfl ih
  | addCallback tid cb _ heq ih =>
      obtain ⟨l, hq, rfl⟩ := addCallback_state_eq heq
      exact append_queueSeqBound cb hq ih
  | addCallbackFromSignal tid cb _ heq ih =>
      obtain ⟨l, hq, rfl⟩ := addCallbackFromSignal_state_eq heq
      exact append_queueSeqBound cb hq ih
  | addHandler fd hh ev _ ih =>
      exact queueSeqBound_of_eq (addHandler_callbacks _ fd hh ev)
        (addHandler_cbSeq _ fd hh ev) ih
  | close _ ih =>
      intro p hp
      exact absurd hp (List.not_mem_nil _)
  | iterate now now2 evs _ ih => exact iterate_queueSeqBound _ now now2 evs ih

end Ioloop
